import Mathlib

/-!
Verification of the conversational bot core (bot.py): text normalization,
fuzzy FAQ resolution via the gestalt pattern-matching ratio, the
application-intake finite state machine, the per-user anti-flood rate gate,
and the message/callback routing layer.

Strings are modelled as lists of characters; Python floats are modelled as
exact rationals; Python dictionaries keyed by user id are modelled as
association lists.
-/

namespace Bot

/-! ## Python string primitives -/

/-- Whitespace as Python's regex class matches it on ASCII text
(space, tab, newline, carriage return, vertical tab, form feed). -/
def pyIsSpace (c : Char) : Bool :=
  c == ' ' || c == '\t' || c == '\n' || c == '\r' || c == '\x0b' || c == '\x0c'

/-- Python str.strip with no argument: remove leading and trailing whitespace. -/
def pyStrip (l : List Char) : List Char :=
  ((l.dropWhile pyIsSpace).reverse.dropWhile pyIsSpace).reverse

/-- Helper for collapseWs: the flag records whether the previous character was
whitespace, in which case further whitespace of the same run is dropped. -/
def collapseWsAux : Bool → List Char → List Char
  | _, [] => []
  | prevWs, c :: cs =>
    if pyIsSpace c then
      match prevWs with
      | true => collapseWsAux true cs
      | false => ' ' :: collapseWsAux true cs
    else c :: collapseWsAux false cs

theorem collapseWsAux_nil (b : Bool) : collapseWsAux b [] = [] := rfl

theorem collapseWsAux_cons_ws_true {c : Char} {cs : List Char} (h : pyIsSpace c = true) :
    collapseWsAux true (c :: cs) = collapseWsAux true cs := by
  simp only [collapseWsAux, h, if_true]

theorem collapseWsAux_cons_ws_false {c : Char} {cs : List Char} (h : pyIsSpace c = true) :
    collapseWsAux false (c :: cs) = ' ' :: collapseWsAux true cs := by
  simp only [collapseWsAux, h, if_true]

theorem collapseWsAux_cons_not {c : Char} {cs : List Char} (b : Bool) (h : pyIsSpace c = false) :
    collapseWsAux b (c :: cs) = c :: collapseWsAux false cs := by
  simp only [collapseWsAux, h]
  simp

/-- Embedding of re.sub of one-or-more whitespace by a single space:
each maximal run of whitespace characters becomes one space. -/
def collapseWs (l : List Char) : List Char := collapseWsAux false l

/-- The punctuation characters normalize strips (bot.py line 130). -/
def punctChars : List Char := ['.', ',', '!', '?', '(', ')', '-', ':', ';']

/-- Embedding of re.sub removing every punctuation character of punctChars. -/
def removePunct (l : List Char) : List Char :=
  l.filter (fun c => decide (c ∉ punctChars))

/-- bot.py normalize: lowercase, strip, collapse whitespace runs to a single
space, then remove the fixed punctuation characters. -/
def normalize (t : List Char) : List Char :=
  removePunct (collapseWs (pyStrip (t.map Char.toLower)))

/-! ## Lemmas about the normalization pipeline (used for claim C7) -/

theorem toNat_ofNat_of_valid (n : Nat) (h : n.isValidChar) : (Char.ofNat n).toNat = n := by
  rw [Char.ofNat, dif_pos h]
  simp [Char.ofNatAux, Char.toNat, UInt32.toNat]

theorem toLower_eq_of_upper {c : Char} (h : c.toNat ≥ 65 ∧ c.toNat ≤ 90) :
    c.toLower = Char.ofNat (c.toNat + 32) := by
  simp only [Char.toLower]
  rw [if_pos h]

theorem toLower_eq_self {c : Char} (h : ¬(c.toNat ≥ 65 ∧ c.toNat ≤ 90)) :
    c.toLower = c := by
  simp only [Char.toLower]
  rw [if_neg h]

theorem toLower_toLower (c : Char) : c.toLower.toLower = c.toLower := by
  by_cases h : c.toNat ≥ 65 ∧ c.toNat ≤ 90
  · have hv : (c.toNat + 32).isValidChar := Or.inl (by omega)
    have ht : (c.toLower).toNat = c.toNat + 32 := by
      rw [toLower_eq_of_upper h, toNat_ofNat_of_valid _ hv]
    exact toLower_eq_self (by omega)
  · rw [toLower_eq_self h, toLower_eq_self h]

theorem toLower_not_punct {c : Char} (h : c ∉ punctChars) : c.toLower ∉ punctChars := by
  by_cases hr : c.toNat ≥ 65 ∧ c.toNat ≤ 90
  · have hv : (c.toNat + 32).isValidChar := Or.inl (by omega)
    have ht : (c.toLower).toNat = c.toNat + 32 := by
      rw [toLower_eq_of_upper hr, toNat_ofNat_of_valid _ hv]
    intro hmem
    have hlt : ∀ d ∈ punctChars, d.toNat < 65 := by decide
    have := hlt _ hmem
    omega
  · rw [toLower_eq_self hr]; exact h

theorem mem_of_mem_dropWhile {p : Char → Bool} {l : List Char} {c : Char}
    (h : c ∈ l.dropWhile p) : c ∈ l :=
  List.dropWhile_subset p h

theorem mem_of_mem_pyStrip {l : List Char} {c : Char} (h : c ∈ pyStrip l) : c ∈ l := by
  unfold pyStrip at h
  rw [List.mem_reverse] at h
  have h2 := mem_of_mem_dropWhile h
  rw [List.mem_reverse] at h2
  exact mem_of_mem_dropWhile h2

theorem mem_of_mem_collapseWsAux {l : List Char} {c : Char} :
    ∀ b, c ∈ collapseWsAux b l → c = ' ' ∨ c ∈ l := by
  induction l with
  | nil => intro b h; rw [collapseWsAux_nil] at h; simp at h
  | cons d ds ih =>
    intro b h
    by_cases hd : pyIsSpace d = true
    · cases b with
      | true =>
        rw [collapseWsAux_cons_ws_true hd] at h
        rcases ih true h with h1 | h1
        · exact Or.inl h1
        · exact Or.inr (List.mem_cons_of_mem _ h1)
      | false =>
        rw [collapseWsAux_cons_ws_false hd] at h
        rcases List.mem_cons.mp h with h1 | h1
        · exact Or.inl h1
        · rcases ih true h1 with h2 | h2
          · exact Or.inl h2
          · exact Or.inr (List.mem_cons_of_mem _ h2)
    · rw [collapseWsAux_cons_not b (Bool.eq_false_iff.mpr hd)] at h
      rcases List.mem_cons.mp h with h1 | h1
      · exact Or.inr (h1 ▸ List.mem_cons_self _ _)
      · rcases ih false h1 with h2 | h2
        · exact Or.inl h2
        · exact Or.inr (List.mem_cons_of_mem _ h2)

theorem mem_of_mem_collapseWs {l : List Char} {c : Char} (h : c ∈ collapseWs l) :
    c = ' ' ∨ c ∈ l :=
  mem_of_mem_collapseWsAux false h

theorem removePunct_eq_self {l : List Char} (h : ∀ c ∈ l, c ∉ punctChars) :
    removePunct l = l := by
  unfold removePunct
  rw [List.filter_eq_self]
  intro a ha
  exact decide_eq_true (h a ha)

theorem map_toLower_eq_self {l : List Char} (h : ∀ c ∈ l, c.toLower = c) :
    l.map Char.toLower = l := by
  induction l with
  | nil => rfl
  | cons d ds ih =>
    simp only [List.map_cons]
    rw [h d (List.mem_cons_self _ _), ih (fun c hc => h c (List.mem_cons_of_mem _ hc))]

theorem head?_dropWhile_not {p : Char → Bool} :
    ∀ {l : List Char} {x : Char}, (l.dropWhile p).head? = some x → p x = false := by
  intro l
  induction l with
  | nil => intro x h; simp [List.dropWhile] at h
  | cons d ds ih =>
    intro x h
    rw [List.dropWhile_cons] at h
    by_cases hd : p d = true
    · rw [if_pos hd] at h; exact ih h
    · rw [if_neg hd] at h
      simp only [List.head?_cons, Option.some.injEq] at h
      subst h
      exact Bool.eq_false_iff.mpr hd

theorem dropWhile_eq_self_of_head {p : Char → Bool} {l : List Char}
    (h : ∀ x, l.head? = some x → p x = false) : l.dropWhile p = l := by
  cases l with
  | nil => rfl
  | cons d ds =>
    rw [List.dropWhile_cons, if_neg]
    simp [h d rfl]

theorem getLast?_dropWhile {p : Char → Bool} {l : List Char}
    (h : l.dropWhile p ≠ []) : (l.dropWhile p).getLast? = l.getLast? := by
  rcases List.dropWhile_suffix (l := l) p with ⟨t, ht⟩
  conv_rhs => rw [← ht]
  rw [List.getLast?_append]
  cases hgl : (l.dropWhile p).getLast? with
  | none => exact absurd (List.getLast?_eq_none_iff.mp hgl) h
  | some y => simp

theorem pyStrip_head_not {l : List Char} {x : Char}
    (h : (pyStrip l).head? = some x) : pyIsSpace x = false := by
  unfold pyStrip at h
  rw [List.head?_reverse] at h
  have hne : ((l.dropWhile pyIsSpace).reverse).dropWhile pyIsSpace ≠ [] := by
    intro he
    rw [he] at h
    simp at h
  rw [getLast?_dropWhile hne, List.getLast?_reverse] at h
  exact head?_dropWhile_not h

theorem pyStrip_getLast_not {l : List Char} {x : Char}
    (h : (pyStrip l).getLast? = some x) : pyIsSpace x = false := by
  unfold pyStrip at h
  rw [List.getLast?_reverse] at h
  exact head?_dropWhile_not h

/-- The shape of collapseWs output: every whitespace character is a plain
space and no two adjacent characters are both whitespace. -/
def Collapsed (l : List Char) : Prop :=
  (∀ c ∈ l, pyIsSpace c = true → c = ' ') ∧
  l.Chain' (fun a b => pyIsSpace a = false ∨ pyIsSpace b = false)

theorem head?_collapseWsAux_true {l : List Char} :
    ∀ {x : Char}, (collapseWsAux true l).head? = some x → pyIsSpace x = false := by
  induction l with
  | nil => intro x h; rw [collapseWsAux_nil] at h; simp at h
  | cons d ds ih =>
    intro x h
    by_cases hd : pyIsSpace d = true
    · rw [collapseWsAux_cons_ws_true hd] at h
      exact ih h
    · rw [collapseWsAux_cons_not true (Bool.eq_false_iff.mpr hd)] at h
      simp only [List.head?_cons, Option.some.injEq] at h
      subst h
      exact Bool.eq_false_iff.mpr hd

theorem collapseWsAux_collapsed : ∀ (l : List Char) (b : Bool), Collapsed (collapseWsAux b l) := by
  intro l
  induction l with
  | nil => intro b; exact ⟨by simp [collapseWsAux_nil], by simp [collapseWsAux_nil]⟩
  | cons d ds ih =>
    intro b
    by_cases hd : pyIsSpace d = true
    · cases b with
      | true => rw [collapseWsAux_cons_ws_true hd]; exact ih true
      | false =>
        rw [collapseWsAux_cons_ws_false hd]
        rcases ih true with ⟨ih1, ih2⟩
        refine ⟨?_, ?_⟩
        · intro c hc hcs
          rcases List.mem_cons.mp hc with h1 | h1
          · exact h1
          · exact ih1 c h1 hcs
        · rw [List.chain'_cons']
          refine ⟨?_, ih2⟩
          intro y hy
          exact Or.inr (head?_collapseWsAux_true (Option.mem_def.mp hy))
    · rw [collapseWsAux_cons_not b (Bool.eq_false_iff.mpr hd)]
      rcases ih false with ⟨ih1, ih2⟩
      refine ⟨?_, ?_⟩
      · intro c hc hcs
        rcases List.mem_cons.mp hc with h1 | h1
        · subst h1; exact absurd hcs hd
        · exact ih1 c h1 hcs
      · rw [List.chain'_cons']
        exact ⟨fun y _ => Or.inl (Bool.eq_false_iff.mpr hd), ih2⟩

theorem collapseWsAux_true_eq_false {l : List Char}
    (h : ∀ x, l.head? = some x → pyIsSpace x = false) :
    collapseWsAux true l = collapseWsAux false l := by
  cases l with
  | nil => rfl
  | cons d ds =>
    have hd := h d rfl
    rw [collapseWsAux_cons_not true hd, collapseWsAux_cons_not false hd]

theorem collapseWsAux_eq_self {l : List Char} (h : Collapsed l) :
    collapseWsAux false l = l := by
  induction l with
  | nil => rfl
  | cons d ds ih =>
    rcases h with ⟨h1, h2⟩
    rw [List.chain'_cons'] at h2
    rcases h2 with ⟨h2a, h2b⟩
    have hds : Collapsed ds := ⟨fun c hc => h1 c (List.mem_cons_of_mem _ hc), h2b⟩
    by_cases hd : pyIsSpace d = true
    · have hdsp : d = ' ' := h1 d (List.mem_cons_self _ _) hd
      rw [collapseWsAux_cons_ws_false hd, collapseWsAux_true_eq_false, ih hds, hdsp]
      intro x hx
      rcases h2a x (Option.mem_def.mpr hx) with hc | hc
      · rw [hd] at hc; exact absurd hc (by simp)
      · exact hc
    · rw [collapseWsAux_cons_not false (Bool.eq_false_iff.mpr hd), ih hds]

theorem collapseWs_eq_self {l : List Char} (h : Collapsed l) : collapseWs l = l :=
  collapseWsAux_eq_self h

theorem collapseWs_head_not {l : List Char}
    (h : ∀ x, l.head? = some x → pyIsSpace x = false) :
    ∀ x, (collapseWs l).head? = some x → pyIsSpace x = false := by
  cases l with
  | nil => intro x hx; simp [collapseWs, collapseWsAux_nil] at hx
  | cons d ds =>
    intro x hx
    have hd := h d rfl
    unfold collapseWs at hx
    rw [collapseWsAux_cons_not false hd] at hx
    simp only [List.head?_cons, Option.some.injEq] at hx
    subst hx
    exact hd

theorem collapseWsAux_ne_nil {l : List Char} (h : ∃ x ∈ l, pyIsSpace x = false) :
    ∀ b, collapseWsAux b l ≠ [] := by
  induction l with
  | nil => rcases h with ⟨x, hx, _⟩; exact absurd hx (by simp)
  | cons d ds ih =>
    intro b
    by_cases hd : pyIsSpace d = true
    · have hds : ∃ x ∈ ds, pyIsSpace x = false := by
        rcases h with ⟨x, hx, hxs⟩
        rcases List.mem_cons.mp hx with h1 | h1
        · subst h1; rw [hd] at hxs; exact absurd hxs (by simp)
        · exact ⟨x, h1, hxs⟩
      cases b with
      | true => rw [collapseWsAux_cons_ws_true hd]; exact ih hds true
      | false => rw [collapseWsAux_cons_ws_false hd]; simp
    · rw [collapseWsAux_cons_not b (Bool.eq_false_iff.mpr hd)]; simp

theorem collapseWsAux_getLast_not {l : List Char} :
    ∀ (b : Bool), (∀ x, l.getLast? = some x → pyIsSpace x = false) →
    ∀ x, (collapseWsAux b l).getLast? = some x → pyIsSpace x = false := by
  induction l with
  | nil => intro b _ x hx; rw [collapseWsAux_nil] at hx; simp at hx
  | cons d ds ih =>
    intro b h x hx
    cases hds : ds with
    | nil =>
      subst hds
      have hd : pyIsSpace d = false := h d rfl
      rw [collapseWsAux_cons_not b hd, collapseWsAux_nil] at hx
      simp only [List.getLast?_cons, List.getLast?_nil, Option.getD_none,
        Option.some.injEq] at hx
      subst hx
      exact hd
    | cons e es =>
      subst hds
      have hlast : ∀ y, (e :: es).getLast? = some y → pyIsSpace y = false := by
        intro y hy
        exact h y (by rw [List.getLast?_cons_cons]; exact hy)
      have hne : ∃ y ∈ e :: es, pyIsSpace y = false := by
        cases hgl : (e :: es).getLast? with
        | none => simp at hgl
        | some z =>
          exact ⟨z, List.mem_of_mem_getLast? (Option.mem_def.mpr hgl), hlast z hgl⟩
      by_cases hd : pyIsSpace d = true
      · cases b with
        | true =>
          rw [collapseWsAux_cons_ws_true hd] at hx
          exact ih true hlast x hx
        | false =>
          rw [collapseWsAux_cons_ws_false hd] at hx
          have hXne : collapseWsAux true (e :: es) ≠ [] := collapseWsAux_ne_nil hne true
          cases hX : collapseWsAux true (e :: es) with
          | nil => exact absurd hX hXne
          | cons f fs =>
            rw [hX, List.getLast?_cons_cons] at hx
            apply ih true hlast x
            rw [hX]
            exact hx
      · rw [collapseWsAux_cons_not b (Bool.eq_false_iff.mpr hd)] at hx
        have hXne : collapseWsAux false (e :: es) ≠ [] := collapseWsAux_ne_nil hne false
        cases hX : collapseWsAux false (e :: es) with
        | nil => exact absurd hX hXne
        | cons f fs =>
          rw [hX, List.getLast?_cons_cons] at hx
          apply ih false hlast x
          rw [hX]
          exact hx

theorem pyStrip_eq_self {l : List Char}
    (h1 : ∀ x, l.head? = some x → pyIsSpace x = false)
    (h2 : ∀ x, l.getLast? = some x → pyIsSpace x = false) : pyStrip l = l := by
  unfold pyStrip
  rw [dropWhile_eq_self_of_head h1]
  rw [dropWhile_eq_self_of_head (by intro x hx; rw [List.head?_reverse] at hx; exact h2 x hx)]
  exact List.reverse_reverse l

theorem normalize_chars_not_punct {u : List Char} (h : ∀ c ∈ u, c ∉ punctChars) :
    ∀ c ∈ collapseWs (pyStrip (u.map Char.toLower)), c ∉ punctChars := by
  intro c hc
  rcases mem_of_mem_collapseWs hc with h1 | h1
  · subst h1; decide
  · have h2 := mem_of_mem_pyStrip h1
    rw [List.mem_map] at h2
    rcases h2 with ⟨d, hd, hdl⟩
    subst hdl
    exact toLower_not_punct (h d hd)

theorem normalize_eq_of_no_punct {u : List Char} (h : ∀ c ∈ u, c ∉ punctChars) :
    normalize u = collapseWs (pyStrip (u.map Char.toLower)) := by
  unfold normalize
  exact removePunct_eq_self (normalize_chars_not_punct h)

/-- C7 (corrected): the claim fails in general, but normalization is
idempotent on every utterance that contains none of the stripped
punctuation characters. -/
theorem c7_normalize_idempotent_no_punct (u : List Char)
    (h : ∀ c ∈ u, c ∉ punctChars) :
    normalize (normalize u) = normalize u := by
  have hv : normalize u = collapseWs (pyStrip (u.map Char.toLower)) :=
    normalize_eq_of_no_punct h
  set v := collapseWs (pyStrip (u.map Char.toLower)) with hvdef
  have hvchar : ∀ c ∈ v, c = ' ' ∨ ∃ d : Char, c = Char.toLower d := by
    intro c hc
    rcases mem_of_mem_collapseWs hc with h1 | h1
    · exact Or.inl h1
    · have h2 := mem_of_mem_pyStrip h1
      rw [List.mem_map] at h2
      rcases h2 with ⟨d, _, hdl⟩
      exact Or.inr ⟨d, hdl.symm⟩
  have hmap : v.map Char.toLower = v := by
    apply map_toLower_eq_self
    intro c hc
    rcases hvchar c hc with h1 | ⟨d, h1⟩
    · subst h1; decide
    · subst h1; exact toLower_toLower d
  have hhead : ∀ x, v.head? = some x → pyIsSpace x = false :=
    collapseWs_head_not (fun x hx => pyStrip_head_not hx)
  have hlast : ∀ x, v.getLast? = some x → pyIsSpace x = false :=
    fun x hx => collapseWsAux_getLast_not false (fun y hy => pyStrip_getLast_not hy) x hx
  have hstrip : pyStrip v = v := pyStrip_eq_self hhead hlast
  have hcol : collapseWs v = v := collapseWs_eq_self (collapseWsAux_collapsed _ false)
  have hpun : removePunct v = v := removePunct_eq_self (normalize_chars_not_punct h)
  rw [hv]
  unfold normalize
  rw [hmap, hstrip, hcol, hpun]

/-- C7 counterexample: on the utterance "a ." normalization is not
idempotent, because deleting the dot leaves a trailing space that only a
second pass would strip. -/
theorem c7_counterexample :
    normalize (normalize ("a .".toList)) ≠ normalize ("a .".toList) := by decide

/-- C7 witness: a concrete punctuation-free utterance on which the amended
idempotence theorem applies. -/
theorem c7_witness :
    (∀ c ∈ ("Hello   World".toList), c ∉ punctChars) ∧
    normalize (normalize ("Hello   World".toList)) = normalize ("Hello   World".toList) :=
  ⟨by decide, c7_normalize_idempotent_no_punct _ (by decide)⟩

/-! ## Knowledge-base data model (faq.json as loaded by bot.py) -/

/-- One FAQ item: trigger patterns, the answer text, an optional image. -/
structure Item where
  patterns : List (List Char) := []
  answer : List Char := []
  image : Option (List Char) := none
deriving DecidableEq, Repr

/-- One FAQ category: a title and its ordered items. -/
structure Category where
  title : List Char := []
  items : List Item := []
deriving DecidableEq, Repr

/-! ## Application FSM (bot.py Apply states and the form handlers) -/

/-- Python str.isdigit on ASCII text: nonempty and every character a
decimal digit. -/
def pyIsdigit (l : List Char) : Bool :=
  !l.isEmpty && l.all Char.isDigit

/-- Python int() applied to a string of decimal digits. -/
def digitsToNat (l : List Char) : Nat :=
  l.foldl (fun a c => 10 * a + (c.toNat - 48)) 0

/-- The FSM states: the four Apply states of bot.py plus the aiogram default
state None, written idle here. -/
inductive ApplyState where
  | idle
  | name
  | age
  | contact
  | experience
deriving DecidableEq, Repr

/-- The FSM data dictionary: the fields the handlers store with update_data. -/
structure Fields where
  name : Option (List Char) := none
  age : Option Nat := none
  contact : Option (List Char) := none
  experience : Option (List Char) := none
deriving DecidableEq, Repr

/-- One user's FSM context: current state plus collected data. -/
structure Session where
  state : ApplyState
  data : Fields
deriving DecidableEq, Repr

/-- The outbound replies, message texts abstracted by constructor; the
completion summary carries the four collected fields, each possibly absent
exactly as data.get may return None. -/
inductive Reply where
  | greeting
  | helpText
  | categoryMenu
  | applyPrompt
  | agePrompt
  | digitsReprompt
  | ageRejection
  | contactPrompt
  | experiencePrompt
  | confirmation
  | summary (name : Option (List Char)) (age : Option Nat)
      (contact : Option (List Char)) (experience : Option (List Char))
  | contactInfo
  | categoryView (data : List Char)
  | itemView (data : List Char)
  | faqResult (r : Option Item)
  | fallback
deriving DecidableEq, Repr

/-- bot.py start_apply: prompt for the name and set state Apply.name.
aiogram's FSMContext.set_state changes only the state; the data dictionary
is left as it is. -/
def start_apply (s : Session) : Session × List Reply :=
  ({ s with state := ApplyState.name }, [Reply.applyPrompt])

/-- bot.py apply_name: store the stripped text as the name and prompt for
the age. -/
def apply_name (s : Session) (text : List Char) : Session × List Reply :=
  ({ state := ApplyState.age, data := { s.data with name := some (pyStrip text) } },
   [Reply.agePrompt])

/-- bot.py apply_age: re-prompt on non-digit input; on an age below 18 clear
the whole context and stop; otherwise store the age and prompt for contact. -/
def apply_age (s : Session) (text : List Char) : Session × List Reply :=
  let ageText := pyStrip text
  if !pyIsdigit ageText then (s, [Reply.digitsReprompt])
  else
    let age := digitsToNat ageText
    if age < 18 then ({ state := ApplyState.idle, data := {} }, [Reply.ageRejection])
    else
      ({ state := ApplyState.contact, data := { s.data with age := some age } },
       [Reply.contactPrompt])

/-- bot.py apply_contact: store the stripped contact and prompt for the
experience. -/
def apply_contact (s : Session) (text : List Char) : Session × List Reply :=
  ({ state := ApplyState.experience,
     data := { s.data with contact := some (pyStrip text) } },
   [Reply.experiencePrompt])

/-- bot.py apply_done: store the experience, read the collected data, clear
the context, confirm to the user and assemble the summary record. -/
def apply_done (s : Session) (text : List Char) : Session × List Reply :=
  let d : Fields := { s.data with experience := some (pyStrip text) }
  ({ state := ApplyState.idle, data := {} },
   [Reply.confirmation, Reply.summary d.name d.age d.contact d.experience])

/-- C2: digit input to CollectingAge below 18 resets the session to Idle
with all fields cleared; 18 or above stores the integer age under the age
field and advances to CollectingContact. -/
theorem c2_apply_age_branches (s : Session) (t : List Char)
    (_hst : s.state = ApplyState.age)
    (hdig : pyIsdigit (pyStrip t) = true) :
    (digitsToNat (pyStrip t) < 18 →
      apply_age s t = (⟨ApplyState.idle, {}⟩, [Reply.ageRejection])) ∧
    (18 ≤ digitsToNat (pyStrip t) →
      apply_age s t =
        (⟨ApplyState.contact, { s.data with age := some (digitsToNat (pyStrip t)) }⟩,
         [Reply.contactPrompt])) := by
  constructor
  · intro hlt
    simp [apply_age, hdig, hlt]
  · intro hge
    simp [apply_age, hdig, Nat.not_lt.mpr hge]

/-- C2 witness: age 17 is rejected with the session reset, concretely. -/
theorem c2_witness :
    apply_age ⟨ApplyState.age, {}⟩ ("17".toList) =
      (⟨ApplyState.idle, {}⟩, [Reply.ageRejection]) :=
  (c2_apply_age_branches ⟨ApplyState.age, {}⟩ ("17".toList) rfl (by decide)).1 (by decide)

/-- C3: input to CollectingAge whose stripped text is not all digits leaves
the session (state and fields) untouched; the only effect is the re-prompt. -/
theorem c3_apply_age_nondigit (s : Session) (t : List Char)
    (_hst : s.state = ApplyState.age)
    (hdig : pyIsdigit (pyStrip t) = false) :
    apply_age s t = (s, [Reply.digitsReprompt]) := by
  simp [apply_age, hdig]

/-- C3 witness: a concrete non-digit age input is only re-prompted. -/
theorem c3_witness :
    apply_age ⟨ApplyState.age, {}⟩ ("18 years".toList) =
      (⟨ApplyState.age, {}⟩, [Reply.digitsReprompt]) :=
  c3_apply_age_nondigit ⟨ApplyState.age, {}⟩ ("18 years".toList) rfl (by decide)

/-- C10: input that strips to the empty string is accepted by the name,
contact and experience handlers: the empty string is stored as the field
value and the flow advances (for experience, into the summary record). -/
theorem c10_empty_accepted (s : Session) (t : List Char) (h : pyStrip t = []) :
    apply_name s t =
      (⟨ApplyState.age, { s.data with name := some [] }⟩, [Reply.agePrompt]) ∧
    apply_contact s t =
      (⟨ApplyState.experience, { s.data with contact := some [] }⟩,
       [Reply.experiencePrompt]) ∧
    apply_done s t =
      (⟨ApplyState.idle, {}⟩,
       [Reply.confirmation,
        Reply.summary s.data.name s.data.age s.data.contact (some [])]) := by
  refine ⟨?_, ?_, ?_⟩ <;> simp [apply_name, apply_contact, apply_done, h]

/-- C10 witness: blank input (spaces only) at a concrete session. -/
theorem c10_witness :
    apply_name ⟨ApplyState.name, {}⟩ ("   ".toList) =
      (⟨ApplyState.age, { name := some [] }⟩, [Reply.agePrompt]) :=
  (c10_empty_accepted ⟨ApplyState.name, {}⟩ ("   ".toList) (by decide)).1

/-! ## AntiFloodMiddleware (bot.py lines 22-64): the per-user rate gate -/

/-- Python dict .get with default 0.0: the user's last-admitted timestamp. -/
def getTs (m : List (Nat × Rat)) (uid : Nat) : Rat :=
  (m.lookup uid).getD 0

/-- Python dict assignment: replace the key's binding or add a new one. -/
def setTs : List (Nat × Rat) → Nat → Rat → List (Nat × Rat)
  | [], uid, t => [(uid, t)]
  | (k, v) :: rest, uid, t =>
    if k = uid then (k, t) :: rest else (k, v) :: setTs rest uid t

/-- The middleware state: the two configured minimum intervals (0.8 s for
messages, 0.3 s for callback presses, as constructed in main) and the two
per-class last-admitted maps. -/
structure AntiFloodMiddleware where
  limit_msg : Rat := 8 / 10
  limit_cb : Rat := 3 / 10
  last_msg : List (Nat × Rat) := []
  last_cb : List (Nat × Rat) := []
deriving DecidableEq, Repr

/-- The middleware body for a Message event: silently drop it when it comes
less than limit_msg after the user's previous admitted message, otherwise
record now and let the handler run. -/
def admitMessage (af : AntiFloodMiddleware) (uid : Nat) (now : Rat) :
    Bool × AntiFloodMiddleware :=
  if now - getTs af.last_msg uid < af.limit_msg then (false, af)
  else (true, { af with last_msg := setTs af.last_msg uid now })

/-- The middleware body for a CallbackQuery event: same check against
limit_cb and the callback map (the dropped press is still acknowledged). -/
def admitCallback (af : AntiFloodMiddleware) (uid : Nat) (now : Rat) :
    Bool × AntiFloodMiddleware :=
  if now - getTs af.last_cb uid < af.limit_cb then (false, af)
  else (true, { af with last_cb := setTs af.last_cb uid now })

theorem getTs_setTs (m : List (Nat × Rat)) (uid : Nat) (t : Rat) :
    getTs (setTs m uid t) uid = t := by
  induction m with
  | nil => simp [getTs, setTs, List.lookup]
  | cons kv rest ih =>
    rcases kv with ⟨k, v⟩
    by_cases hk : k = uid
    · subst hk
      simp [getTs, setTs, List.lookup]
    · rw [setTs, if_neg hk]
      have hbeq : (uid == k) = false := beq_eq_false_iff_ne.mpr (Ne.symm hk)
      simp only [getTs, List.lookup, hbeq] at ih ⊢
      exact ih

/-- C4: after an admitted event at time t1, a second event of the same class
for the same user is rejected with no state mutation when its time differs
from t1 by less than the class interval (0.8 s messages, 0.3 s callbacks),
and is admitted with the timestamp updated to now when the difference is at
least the interval. -/
theorem c4_rate_gate (af : AntiFloodMiddleware) (uid : Nat) (t1 now : Rat)
    (hm : af.limit_msg = 8 / 10) (hc : af.limit_cb = 3 / 10) :
    ((admitMessage af uid t1).1 = true →
      (now - t1 < 8 / 10 →
        admitMessage (admitMessage af uid t1).2 uid now =
          (false, (admitMessage af uid t1).2)) ∧
      (8 / 10 ≤ now - t1 →
        (admitMessage (admitMessage af uid t1).2 uid now).1 = true ∧
        getTs (admitMessage (admitMessage af uid t1).2 uid now).2.last_msg uid = now)) ∧
    ((admitCallback af uid t1).1 = true →
      (now - t1 < 3 / 10 →
        admitCallback (admitCallback af uid t1).2 uid now =
          (false, (admitCallback af uid t1).2)) ∧
      (3 / 10 ≤ now - t1 →
        (admitCallback (admitCallback af uid t1).2 uid now).1 = true ∧
        getTs (admitCallback (admitCallback af uid t1).2 uid now).2.last_cb uid = now)) := by
  constructor
  · intro hadm
    have hcond : ¬(t1 - getTs af.last_msg uid < af.limit_msg) := by
      intro hc2
      rw [admitMessage, if_pos hc2] at hadm
      exact Bool.false_ne_true hadm
    have hst : (admitMessage af uid t1).2 =
        { af with last_msg := setTs af.last_msg uid t1 } := by
      rw [admitMessage, if_neg hcond]
    rw [hst]
    constructor
    · intro hlt
      rw [admitMessage]
      rw [if_pos]
      simp only [getTs_setTs]
      show now - t1 < af.limit_msg
      rw [hm]
      exact hlt
    · intro hge
      rw [admitMessage]
      rw [if_neg]
      · simp [getTs_setTs]
      · simp only [getTs_setTs]
        show ¬(now - t1 < af.limit_msg)
        rw [hm]
        exact not_lt.mpr hge
  · intro hadm
    have hcond : ¬(t1 - getTs af.last_cb uid < af.limit_cb) := by
      intro hc2
      rw [admitCallback, if_pos hc2] at hadm
      exact Bool.false_ne_true hadm
    have hst : (admitCallback af uid t1).2 =
        { af with last_cb := setTs af.last_cb uid t1 } := by
      rw [admitCallback, if_neg hcond]
    rw [hst]
    constructor
    · intro hlt
      rw [admitCallback]
      rw [if_pos]
      simp only [getTs_setTs]
      show now - t1 < af.limit_cb
      rw [hc]
      exact hlt
    · intro hge
      rw [admitCallback]
      rw [if_neg]
      · simp [getTs_setTs]
      · simp only [getTs_setTs]
        show ¬(now - t1 < af.limit_cb)
        rw [hc]
        exact not_lt.mpr hge

/-- C4 witness: a concrete second message 0.5 s after an admitted one is
dropped without touching the state. -/
theorem c4_witness :
    admitMessage (admitMessage {} 1 1).2 1 (3 / 2) = (false, (admitMessage {} 1 1).2) :=
  ((c4_rate_gate {} 1 1 (3 / 2) rfl rfl).1 (by norm_num [admitMessage, getTs])).1
    (by norm_num)

/-! ## difflib.SequenceMatcher(None, a, b).ratio() as best_faq_answer uses it -/

/-- The character of l at position i (the bounds are always checked before
this is relied on). -/
def chAt (l : List Char) (i : Nat) : Char := l.getD i ' '

/-- Whether cell (i, j) matches in the dynamic-programming phase of
find_longest_match: positions in range, equal characters, and the b-side
character present in b2j (neither junk nor autojunk-popular). -/
def matchAt (bjunk pop : Char → Bool) (a b : List Char) (i j : Nat) : Bool :=
  decide (i < a.length) && decide (j < b.length) &&
  (chAt a i == chAt b j) && !bjunk (chAt b j) && !pop (chAt b j)

/-- The matching run length ending at cell (i, j): the value j2len assigns
to column j while row i is processed. -/
def dpRun (bjunk pop : Char → Bool) (a b : List Char) : Nat → Nat → Nat
  | 0, j => if matchAt bjunk pop a b 0 j then 1 else 0
  | i + 1, 0 => if matchAt bjunk pop a b (i + 1) 0 then 1 else 0
  | i + 1, j + 1 =>
    if matchAt bjunk pop a b (i + 1) (j + 1) then dpRun bjunk pop a b i j + 1 else 0

/-- One cell of the scan: a strictly larger run replaces the stored block
(besti, bestj, bestsize), ties keep the earlier cell. -/
def scanStep (bjunk pop : Char → Bool) (a b : List Char) (i : Nat)
    (bst : Nat × Nat × Nat) (j : Nat) : Nat × Nat × Nat :=
  let k := dpRun bjunk pop a b i j
  if k > bst.2.2 then (i + 1 - k, j + 1 - k, k) else bst

/-- One row of the scan: columns in ascending order. -/
def scanRow (bjunk pop : Char → Bool) (a b : List Char)
    (bst : Nat × Nat × Nat) (i : Nat) : Nat × Nat × Nat :=
  (List.range b.length).foldl (scanStep bjunk pop a b i) bst

/-- The dynamic-programming phase of find_longest_match: rows in ascending
order over all of a, starting from the empty block at (0, 0). -/
def scanBest (bjunk pop : Char → Bool) (a b : List Char) : Nat × Nat × Nat :=
  (List.range a.length).foldl (scanRow bjunk pop a b) (0, 0, 0)

/-- How many steps one while-loop extension takes: the number of leading
positions on which the two aligned tails agree, the b-side character having
the junk flag the loop requires. -/
def extCount (flag : Bool) (bjunk : Char → Bool) : List Char → List Char → Nat
  | x :: xs, y :: ys =>
    if x == y && (bjunk y == flag) then extCount flag bjunk xs ys + 1 else 0
  | _, _ => 0

/-- One backward while-loop of find_longest_match: walk the two prefixes
before the block backwards while the characters agree and the b-side
character's junk status is the one the loop wants. -/
def extendBack (flag : Bool) (bjunk : Char → Bool) (a b : List Char)
    (bst : Nat × Nat × Nat) : Nat × Nat × Nat :=
  let t := extCount flag bjunk ((a.take bst.1).reverse) ((b.take bst.2.1).reverse)
  (bst.1 - t, bst.2.1 - t, bst.2.2 + t)

/-- One forward while-loop of find_longest_match: walk the two suffixes
after the block forwards under the same conditions. -/
def extendFwd (flag : Bool) (bjunk : Char → Bool) (a b : List Char)
    (bst : Nat × Nat × Nat) : Nat × Nat × Nat :=
  let t := extCount flag bjunk (a.drop (bst.1 + bst.2.2)) (b.drop (bst.2.1 + bst.2.2))
  (bst.1, bst.2.1, bst.2.2 + t)

/-- difflib find_longest_match over the whole strings: the DP scan, then the
four extension loops in order (non-junk backwards, non-junk forwards, junk
backwards, junk forwards). With isjunk=None the junk set is empty; popular
characters are only excluded from b2j. -/
def findLongestMatch (bjunk pop : Char → Bool) (a b : List Char) : Nat × Nat × Nat :=
  extendFwd true bjunk a b (extendBack true bjunk a b
    (extendFwd false bjunk a b (extendBack false bjunk a b (scanBest bjunk pop a b))))

/-- Total size of the matching blocks: find the longest block and recurse on
both sides, the recursive content of get_matching_blocks. Fuel-indexed; the
summed length is always enough fuel, proved below. -/
def matchTotalF (bjunk pop : Char → Bool) : Nat → List Char → List Char → Nat
  | 0, _, _ => 0
  | fuel + 1, a, b =>
    let m := findLongestMatch bjunk pop a b
    if m.2.2 = 0 then 0
    else
      matchTotalF bjunk pop fuel (a.take m.1) (b.take m.2.1) + m.2.2 +
      matchTotalF bjunk pop fuel (a.drop (m.1 + m.2.2)) (b.drop (m.2.1 + m.2.2))

/-- Total matched size over the whole strings. -/
def matchTotal (bjunk pop : Char → Bool) (a b : List Char) : Nat :=
  matchTotalF bjunk pop (a.length + b.length) a b

/-- The autojunk popularity test difflib applies to b when len(b) is at
least 200: characters occurring more than len(b) div 100 + 1 times. -/
def popularOf (b : List Char) (c : Char) : Bool :=
  decide (200 ≤ b.length) && decide (b.length / 100 + 1 < b.count c)

/-- SequenceMatcher(None, a, b).ratio(): twice the matched total over the
summed lengths, 1.0 when both strings are empty, as an exact rational. -/
def ratio (a b : List Char) : Rat :=
  if a.length + b.length = 0 then 1
  else 2 * (matchTotal (fun _ => false) (popularOf b) a b : Rat) / ((a.length : Rat) + (b.length : Rat))

/-! ## best_faq_answer (bot.py lines 133-146) -/

/-- The scan order of best_faq_answer: for every category, every item and
every pattern in order, the item paired with the similarity of the
normalized utterance and the normalized pattern. -/
def faqPairs (kb : List Category) (q : List Char) : List (Item × Rat) :=
  kb.flatMap (fun cat => cat.items.flatMap (fun it =>
    it.patterns.map (fun p => (it, ratio q (normalize p)))))

/-- One step of the best_faq_answer loop: a strictly larger score replaces
the stored (item, score) pair. -/
def faqStep (bst : Option Item × Rat) (p : Item × Rat) : Option Item × Rat :=
  if p.2 > bst.2 then (some p.1, p.2) else bst

/-- bot.py best_faq_answer: track the strictly best scoring item over the
scan, then apply the acceptance threshold (default 0.63); the score is
returned in both branches. -/
def best_faq_answer (kb : List Category) (user_text : List Char)
    (threshold : Rat := 63 / 100) : Option Item × Rat :=
  let q := normalize user_text
  let r := (faqPairs kb q).foldl faqStep (none, 0)
  if r.2 ≥ threshold then r else (none, r.2)

/-! ## Router dispatch (bot.py handler registration order) -/

/-- An inbound event for one user: a text message or a callback press. -/
inductive Event where
  | msg (text : List Char)
  | cb (data : List Char)
deriving DecidableEq, Repr

/-- aiogram Command filter: the first whitespace-delimited token of the text
is the slash command, optionally followed by an at sign and a bot name. -/
def commandIs (c : List Char) (text : List Char) : Bool :=
  let tok := text.takeWhile (fun ch => ch != ' ')
  tok == '/' :: c || List.isPrefixOf ('/' :: c ++ ['@']) tok

/-- The message handlers of bot.py in registration order. -/
inductive MsgHandler where
  | onStart
  | onHelp
  | onFaq
  | startApply
  | applyName
  | applyAge
  | applyContact
  | applyDone
  | contactCmd
  | freeText
deriving DecidableEq, Repr

/-- The callback handlers of bot.py in registration order. -/
inductive CbHandler where
  | cbFaq
  | cbCategory
  | cbItem
  | startApply
  | contactCb
deriving DecidableEq, Repr

/-- Message dispatch: aiogram tries the message handlers in registration
order and the first matching filter wins. The four form handlers are
guarded by their FSM state and registered between Command("apply") and
Command("contact"); free text requires state None (idle). -/
def routeMessage (st : ApplyState) (text : List Char) : MsgHandler :=
  if commandIs ("start".toList) text then MsgHandler.onStart
  else if commandIs ("help".toList) text then MsgHandler.onHelp
  else if commandIs ("faq".toList) text then MsgHandler.onFaq
  else if commandIs ("apply".toList) text then MsgHandler.startApply
  else if st = ApplyState.name then MsgHandler.applyName
  else if st = ApplyState.age then MsgHandler.applyAge
  else if st = ApplyState.contact then MsgHandler.applyContact
  else if st = ApplyState.experience then MsgHandler.applyDone
  else if commandIs ("contact".toList) text then MsgHandler.contactCmd
  else MsgHandler.freeText

/-- Callback dispatch: filters on the callback data, in registration order;
data matching no filter is handled by nobody. -/
def routeCallback (d : List Char) : Option CbHandler :=
  if d == "faq".toList then some CbHandler.cbFaq
  else if List.isPrefixOf ("cat:".toList) d then some CbHandler.cbCategory
  else if List.isPrefixOf ("item:".toList) d then some CbHandler.cbItem
  else if d == "apply".toList then some CbHandler.startApply
  else if d == "contact".toList then some CbHandler.contactCb
  else none

/-- One admitted event processed for one user's session: dispatch composed
with the handler bodies. Handlers that never touch the FSM context leave
the session unchanged; the FAQ menu and lookup handlers only reply. -/
def step (kb : List Category) (s : Session) : Event → Session × List Reply
  | Event.msg t =>
    match routeMessage s.state t with
    | MsgHandler.onStart => (s, [Reply.greeting])
    | MsgHandler.onHelp => (s, [Reply.helpText])
    | MsgHandler.onFaq => (s, [Reply.categoryMenu])
    | MsgHandler.startApply => start_apply s
    | MsgHandler.applyName => apply_name s t
    | MsgHandler.applyAge => apply_age s t
    | MsgHandler.applyContact => apply_contact s t
    | MsgHandler.applyDone => apply_done s t
    | MsgHandler.contactCmd => (s, [Reply.contactInfo])
    | MsgHandler.freeText => (s, [Reply.faqResult (best_faq_answer kb t).1])
  | Event.cb d =>
    match routeCallback d with
    | some CbHandler.cbFaq => (s, [Reply.categoryMenu])
    | some CbHandler.cbCategory => (s, [Reply.categoryView d])
    | some CbHandler.cbItem => (s, [Reply.itemView d])
    | some CbHandler.startApply => start_apply s
    | some CbHandler.contactCb => (s, [Reply.contactInfo])
    | none => (s, [])

/-- A whole per-user run: fold step over the admitted events, replies
dropped, starting from the given session. -/
def run (kb : List Category) (s0 : Session) (evs : List Event) : Session :=
  evs.foldl (fun s ev => (step kb s ev).1) s0

/-! ## Bounds-checked item lookup (cb_category and cb_item, claim C9) -/

/-- The Python errors the callback handlers can raise. -/
inductive PyErr where
  | indexError
  | valueError
deriving DecidableEq, Repr

/-- Python list indexing as CPython performs it: a negative index first has
the length added; what is then out of the range 0..len-1 raises IndexError. -/
def pyIndex {A : Type} (l : List A) (i : Int) : Except PyErr A :=
  let j : Int := if i < 0 then i + (l.length : Int) else i
  if 0 ≤ j then
    match l.get? j.toNat with
    | some x => Except.ok x
    | none => Except.error PyErr.indexError
  else Except.error PyErr.indexError

/-- cb_item item lookup: CATEGORIES[cidx]["items"][iidx] with the two parsed
integer indices. -/
def itemAt (kb : List Category) (cidx iidx : Int) : Except PyErr Item := do
  let cat ← pyIndex kb cidx
  pyIndex cat.items iidx

/-- The spec's session invariant, as a boolean: collectedFields holds
fields only for states the flow has already passed. -/
def fieldsOnlyPast (s : Session) : Bool :=
  match s.state with
  | ApplyState.idle => s.data == {}
  | ApplyState.name => s.data == {}
  | ApplyState.age =>
      s.data.age == none && s.data.contact == none && s.data.experience == none
  | ApplyState.contact => s.data.contact == none && s.data.experience == none
  | ApplyState.experience => s.data.experience == none

/-- C5 (corrected): the /start, /help, /faq and /apply commands and all five
recognized callback actions dispatch to their own handlers in every FSM
state, bypassing the form handlers and the FAQ lookup; the /contact command
does so only from Idle, and a cancel event has no handler. -/
theorem c5_navigation_dispatch (st : ApplyState) (sfx : List Char) :
    routeMessage st ("/start".toList) = MsgHandler.onStart ∧
    routeMessage st ("/help".toList) = MsgHandler.onHelp ∧
    routeMessage st ("/faq".toList) = MsgHandler.onFaq ∧
    routeMessage st ("/apply".toList) = MsgHandler.startApply ∧
    routeCallback ("faq".toList) = some CbHandler.cbFaq ∧
    routeCallback ("cat:".toList ++ sfx) = some CbHandler.cbCategory ∧
    routeCallback ("item:".toList ++ sfx) = some CbHandler.cbItem ∧
    routeCallback ("apply".toList) = some CbHandler.startApply ∧
    routeCallback ("contact".toList) = some CbHandler.contactCb ∧
    routeMessage ApplyState.idle ("/contact".toList) = MsgHandler.contactCmd ∧
    routeCallback ("cancel".toList) = none := by
  refine ⟨rfl, rfl, rfl, rfl, rfl, ?_, ?_, rfl, rfl, rfl, rfl⟩ <;>
    simp [routeCallback, List.isPrefixOf]

/-- C5 counterexample: the /contact navigation command sent while the FSM
collects the name is dispatched to the name handler and its raw text stored
as the name field, and a cancel callback is dispatched to no handler. -/
theorem c5_counterexample :
    routeMessage ApplyState.name ("/contact".toList) = MsgHandler.applyName ∧
    MsgHandler.applyName ≠ MsgHandler.contactCmd ∧
    (step [] ⟨ApplyState.name, {}⟩ (Event.msg ("/contact".toList))).1 =
      ⟨ApplyState.age, { name := some ("/contact".toList) }⟩ ∧
    routeCallback ("cancel".toList) = none :=
  ⟨by decide, by decide, by decide, by decide⟩

/-- C6 (corrected): the start action always moves the session to
CollectingName and leaves the collected fields exactly as they were; no
field is discarded on a restart. -/
theorem c6_restart_keeps_fields (kb : List Category) (s : Session)
    (_h : s.state ≠ ApplyState.idle) :
    (step kb s (Event.msg ("/apply".toList))).1 = ⟨ApplyState.name, s.data⟩ ∧
    (step kb s (Event.cb ("apply".toList))).1 = ⟨ApplyState.name, s.data⟩ :=
  ⟨rfl, rfl⟩

/-- C6 witness: a concrete mid-flow session restarted by /apply keeps its
fields. -/
theorem c6_witness :
    (step [] ⟨ApplyState.contact, { name := some ("Ivan".toList), age := some 25 }⟩
      (Event.msg ("/apply".toList))).1 =
      ⟨ApplyState.name, { name := some ("Ivan".toList), age := some 25 }⟩ :=
  (c6_restart_keeps_fields [] _ (by decide)).1

/-- C6 counterexample: a reachable run (apply, name, age 25, apply again)
ends in CollectingName with the name and age fields still present, so the
restart discards nothing and the passed-states invariant is violated. -/
theorem c6_counterexample :
    run [] ⟨ApplyState.idle, {}⟩
      [Event.msg ("/apply".toList), Event.msg ("Ivan".toList),
       Event.msg ("25".toList), Event.msg ("/apply".toList)] =
      ⟨ApplyState.name, { name := some ("Ivan".toList), age := some 25 }⟩ ∧
    ({ name := some ("Ivan".toList), age := some 25 } : Fields) ≠ {} ∧
    fieldsOnlyPast ⟨ApplyState.name, { name := some ("Ivan".toList), age := some 25 }⟩ =
      false :=
  ⟨by decide, by decide, by decide⟩

/-- Python index normalization: the non-negative position an index denotes
in a list of length n, none when the index is out of range. -/
def pyWrap (n : Nat) (i : Int) : Option Nat :=
  if 0 ≤ i then (if i < (n : Int) then some i.toNat else none)
  else (if 0 ≤ i + (n : Int) then some (i + n).toNat else none)

theorem pyIndex_spec {A : Type} (l : List A) (i : Int) :
    (∃ j : Nat, pyWrap l.length i = some j ∧
      ∃ h : j < l.length, pyIndex l i = Except.ok (l.get ⟨j, h⟩)) ∨
    (pyWrap l.length i = none ∧ pyIndex l i = Except.error PyErr.indexError) := by
  simp only [pyIndex, pyWrap]
  by_cases hneg : i < 0
  · rw [if_pos hneg, if_neg (by omega : ¬(0 ≤ i))]
    by_cases hin : 0 ≤ i + (l.length : Int)
    · have hlt : (i + (l.length : Int)).toNat < l.length := by omega
      left
      refine ⟨(i + (l.length : Int)).toNat, by rw [if_pos hin], hlt, ?_⟩
      rw [if_pos hin, List.get?_eq_get hlt]
    · right
      refine ⟨by rw [if_neg hin], ?_⟩
      rw [if_neg hin]
  · rw [if_neg hneg, if_pos (by omega : 0 ≤ i)]
    by_cases hin : i < (l.length : Int)
    · have hlt : i.toNat < l.length := by omega
      left
      refine ⟨i.toNat, by rw [if_pos hin], hlt, ?_⟩
      rw [if_pos (by omega : 0 ≤ i), List.get?_eq_get hlt]
    · right
      refine ⟨by rw [if_neg hin], ?_⟩
      rw [if_pos (by omega : 0 ≤ i), List.get?_eq_none.mpr (by omega)]

/-- C9 (corrected): the item lookup follows Python list indexing. An index
pair whose components lie between minus length and length minus one selects
an item, negatives counting from the end; anything out of that range raises
IndexError. In particular an in-range negative index silently returns an
item instead of failing. -/
theorem c9_item_lookup_python (kb : List Category) (ci ii : Int) :
    (∃ jc : Nat, pyWrap kb.length ci = some jc ∧ ∃ hc : jc < kb.length,
      ((∃ ji : Nat, pyWrap (kb.get ⟨jc, hc⟩).items.length ii = some ji ∧
          ∃ hi : ji < (kb.get ⟨jc, hc⟩).items.length,
          itemAt kb ci ii = Except.ok ((kb.get ⟨jc, hc⟩).items.get ⟨ji, hi⟩)) ∨
       (pyWrap (kb.get ⟨jc, hc⟩).items.length ii = none ∧
          itemAt kb ci ii = Except.error PyErr.indexError))) ∨
    (pyWrap kb.length ci = none ∧ itemAt kb ci ii = Except.error PyErr.indexError) := by
  rcases pyIndex_spec kb ci with ⟨jc, hwc, hc, hok⟩ | ⟨hwc, herr⟩
  · left
    refine ⟨jc, hwc, hc, ?_⟩
    rcases pyIndex_spec (kb.get ⟨jc, hc⟩).items ii with ⟨ji, hwi, hi, hoki⟩ | ⟨hwi, herri⟩
    · left
      refine ⟨ji, hwi, hi, ?_⟩
      rw [itemAt, hok]
      exact hoki
    · right
      refine ⟨hwi, ?_⟩
      rw [itemAt, hok]
      exact herri
  · right
    refine ⟨hwc, ?_⟩
    rw [itemAt, herr]
    rfl

instance instDecEqExcept {E A : Type} [DecidableEq E] [DecidableEq A] :
    DecidableEq (Except E A) := fun x y =>
  match x, y with
  | Except.ok a, Except.ok b =>
    if h : a = b then isTrue (by rw [h]) else isFalse (by simp [h])
  | Except.error e, Except.error f =>
    if h : e = f then isTrue (by rw [h]) else isFalse (by simp [h])
  | Except.ok _, Except.error _ => isFalse (by simp)
  | Except.error _, Except.ok _ => isFalse (by simp)

/-- A one-category, one-item knowledge base for the C9 counterexample. -/
def it0 : Item := ⟨[['q']], ['a'], none⟩

/-- Its knowledge base. -/
def kb1 : List Category := [⟨['t'], [it0]⟩]

/-- C9 counterexample: the pair (-1, -1) is outside the rendered 0-based
range, yet the lookup silently returns the item instead of raising. -/
theorem c9_counterexample :
    ¬(0 ≤ (-1 : Int)) ∧ itemAt kb1 (-1) (-1) = Except.ok it0 :=
  ⟨by decide, by decide⟩

/-! ## Claim C1: the scan characterization of best_faq_answer -/

/-- The maximum score over the scan, folded from an initial value. -/
def maxScore (ps : List (Item × Rat)) (b : Rat) : Rat :=
  ps.foldl (fun a p => max a p.2) b

/-- resolve as the spec words it: the best score is the maximum similarity
over the whole scan (starting from 0), the matched item is the first one
attaining it, returned only when the best score reaches the 0.63 threshold;
the score is returned either way. -/
def resolveSpec (kb : List Category) (user_text : List Char) : Option Item × Rat :=
  let q := normalize user_text
  let ps := faqPairs kb q
  let m := maxScore ps 0
  if m ≥ 63 / 100 then ((ps.find? (fun p => p.2 == m)).map Prod.fst, m)
  else (none, m)

theorem maxScore_nil (b : Rat) : maxScore [] b = b := rfl

theorem maxScore_cons (p : Item × Rat) (ps : List (Item × Rat)) (b : Rat) :
    maxScore (p :: ps) b = maxScore ps (max b p.2) := rfl

theorem le_maxScore_self (ps : List (Item × Rat)) : ∀ b, b ≤ maxScore ps b := by
  induction ps with
  | nil => intro b; rw [maxScore_nil]
  | cons p ps ih =>
    intro b
    rw [maxScore_cons]
    exact le_trans (le_max_left _ _) (ih _)

theorem le_maxScore_of_mem {ps : List (Item × Rat)} {p : Item × Rat}
    (h : p ∈ ps) : ∀ b, p.2 ≤ maxScore ps b := by
  induction ps with
  | nil => exact absurd h (List.not_mem_nil _)
  | cons q ps ih =>
    intro b
    rw [maxScore_cons]
    rcases List.mem_cons.mp h with h1 | h1
    · subst h1
      exact le_trans (le_max_right _ _) (le_maxScore_self _ _)
    · exact ih h1 _

theorem maxScore_of_le {ps : List (Item × Rat)} :
    ∀ {b : Rat}, (∀ p ∈ ps, p.2 ≤ b) → maxScore ps b = b := by
  induction ps with
  | nil => intro b _; rfl
  | cons q ps ih =>
    intro b h
    rw [maxScore_cons, max_eq_left (h q (List.mem_cons_self _ _))]
    exact ih (fun p hp => h p (List.mem_cons_of_mem _ hp))

theorem faqStep_snd (b : Option Item × Rat) (p : Item × Rat) :
    (faqStep b p).2 = max b.2 p.2 := by
  unfold faqStep
  by_cases h : p.2 > b.2
  · rw [if_pos h, max_eq_right (le_of_lt h)]
  · rw [if_neg h, max_eq_left (le_of_not_lt h)]

theorem faqFold_of_le {ps : List (Item × Rat)} :
    ∀ {b : Option Item × Rat}, (∀ p ∈ ps, p.2 ≤ b.2) → ps.foldl faqStep b = b := by
  induction ps with
  | nil => intro b _; rfl
  | cons q ps ih =>
    intro b h
    rw [List.foldl_cons]
    have hq : faqStep b q = b := by
      unfold faqStep
      rw [if_neg (not_lt.mpr (h q (List.mem_cons_self _ _)))]
    rw [hq]
    exact ih (fun p hp => h p (List.mem_cons_of_mem _ hp))

theorem faqFold_main (ps : List (Item × Rat)) :
    ∀ (b : Option Item × Rat), (∃ p ∈ ps, b.2 < p.2) →
    ps.foldl faqStep b =
      ((ps.find? (fun p => p.2 == maxScore ps b.2)).map Prod.fst, maxScore ps b.2) := by
  induction ps with
  | nil => intro b h; rcases h with ⟨p, hp, _⟩; exact absurd hp (List.not_mem_nil _)
  | cons q ps ih =>
    intro b hex
    rw [List.foldl_cons, maxScore_cons]
    by_cases hq : q.2 > b.2
    · have hstep : faqStep b q = (some q.1, q.2) := by
        unfold faqStep; rw [if_pos hq]
      have hmax : max b.2 q.2 = q.2 := max_eq_right (le_of_lt hq)
      rw [hstep, hmax]
      by_cases hex2 : ∃ p ∈ ps, q.2 < p.2
      · have := ih (some q.1, q.2) hex2
        rw [this]
        rcases hex2 with ⟨r, hr, hrgt⟩
        have hMgt : q.2 < maxScore ps q.2 :=
          lt_of_lt_of_le hrgt (le_maxScore_of_mem hr _)
      
        rw [List.find?_cons_of_neg]
        exact fun hcon => absurd (eq_of_beq hcon) (ne_of_lt hMgt)
      · push_neg at hex2
        have hM : maxScore ps q.2 = q.2 := maxScore_of_le hex2
        have hfold : ps.foldl faqStep (some q.1, q.2) = (some q.1, q.2) :=
          faqFold_of_le hex2
        rw [hfold, hM, List.find?_cons_of_pos]
        · rfl
        · exact beq_self_eq_true _
    · have hstep : faqStep b q = b := by
        unfold faqStep; rw [if_neg hq]
      have hmax : max b.2 q.2 = b.2 := max_eq_left (le_of_not_lt hq)
      rw [hstep, hmax]
      have hex2 : ∃ p ∈ ps, b.2 < p.2 := by
        rcases hex with ⟨p, hp, hgt⟩
        rcases List.mem_cons.mp hp with h1 | h1
        · subst h1; exact absurd hgt hq
        · exact ⟨p, h1, hgt⟩
      rw [ih b hex2]
      rcases hex2 with ⟨r, hr, hrgt⟩
      have hMgt : q.2 < maxScore ps b.2 := by
        have h1 : b.2 < maxScore ps b.2 :=
          lt_of_lt_of_le hrgt (le_maxScore_of_mem hr _)
        exact lt_of_le_of_lt (le_of_not_lt hq) h1
      rw [List.find?_cons_of_neg]
      exact fun hcon => absurd (eq_of_beq hcon) (ne_of_lt hMgt)

/-- C1: resolve scans every pattern of every item of every category in
order, tracks the single highest-scoring (item, score) pair with ties kept
by the first-seen item, and returns that item with its score when the best
score reaches the 0.63 threshold, no item but still the score otherwise. -/
theorem c1_best_faq_answer_spec (kb : List Category) (t : List Char) :
    best_faq_answer kb t = resolveSpec kb t := by
  simp only [best_faq_answer, resolveSpec]
  by_cases hex : ∃ p ∈ faqPairs kb (normalize t), (0 : Rat) < p.2
  · have hmain : (faqPairs kb (normalize t)).foldl faqStep (none, 0) =
        (((faqPairs kb (normalize t)).find?
            (fun p => p.2 == maxScore (faqPairs kb (normalize t)) 0)).map Prod.fst,
          maxScore (faqPairs kb (normalize t)) 0) :=
      faqFold_main (faqPairs kb (normalize t)) (none, 0) (by simpa using hex)
    rw [hmain]
  · push_neg at hex
    have hfold : (faqPairs kb (normalize t)).foldl faqStep (none, 0) = (none, 0) :=
      faqFold_of_le (by simpa using hex)
    have hM : maxScore (faqPairs kb (normalize t)) 0 = 0 := maxScore_of_le hex
    rw [hfold, hM]
    norm_num

/-! ## Invariants of findLongestMatch (used for claim C8) -/

theorem foldl_preserve {α β : Type} {P : β → Prop} {Q : α → Prop} {f : β → α → β} :
    ∀ {l : List α}, (∀ x ∈ l, Q x) → (∀ b x, P b → Q x → P (f b x)) →
    ∀ {b : β}, P b → P (l.foldl f b) := by
  intro l
  induction l with
  | nil => intro _ _ b hb; exact hb
  | cons x xs ih =>
    intro hQ hstep b hb
    rw [List.foldl_cons]
    exact ih (fun y hy => hQ y (List.mem_cons_of_mem _ hy)) hstep
      (hstep b x hb (hQ x (List.mem_cons_self _ _)))

theorem matchAt_iff {bjunk pop : Char → Bool} {a b : List Char} {i j : Nat} :
    matchAt bjunk pop a b i j = true ↔
      i < a.length ∧ j < b.length ∧ chAt a i = chAt b j ∧
      bjunk (chAt b j) = false ∧ pop (chAt b j) = false := by
  simp [matchAt, and_assoc]

theorem slice_take_one {l : List Char} {i : Nat} (h : i < l.length) :
    (l.drop i).take 1 = [chAt l i] := by
  have hc : chAt l i = l[i] := List.getD_eq_getElem l ' ' h
  rw [List.drop_eq_getElem_cons h, hc]
  rfl

theorem slice_snoc {l : List Char} {s k : Nat} (h : s + k < l.length) :
    (l.drop s).take (k + 1) = (l.drop s).take k ++ [chAt l (s + k)] := by
  have hc : chAt l (s + k) = l[s + k] := List.getD_eq_getElem l ' ' h
  rw [List.take_succ]
  congr 1
  rw [hc]
  have h2 : (l.drop s)[k]? = some l[s + k] := by
    rw [List.getElem?_drop]
    exact List.getElem?_eq_getElem h
  rw [h2]
  rfl

theorem dpRun_le_left {bjunk pop : Char → Bool} {a b : List Char} :
    ∀ i j, dpRun bjunk pop a b i j ≤ i + 1 := by
  intro i
  induction i with
  | zero => intro j; rw [dpRun]; split <;> omega
  | succ i ih =>
    intro j
    cases j with
    | zero => rw [dpRun]; split <;> omega
    | succ j =>
      rw [dpRun]
      split
      · have := ih j; omega
      · omega

theorem dpRun_le_right {bjunk pop : Char → Bool} {a b : List Char} :
    ∀ j i, dpRun bjunk pop a b i j ≤ j + 1 := by
  intro j
  induction j with
  | zero =>
    intro i
    cases i with
    | zero => rw [dpRun]; split <;> omega
    | succ i => rw [dpRun]; split <;> omega
  | succ j ih =>
    intro i
    cases i with
    | zero => rw [dpRun]; split <;> omega
    | succ i =>
      rw [dpRun]
      split
      · have := ih i; omega
      · omega

theorem dpRun_slice {bjunk pop : Char → Bool} {a b : List Char} :
    ∀ i j, (a.drop (i + 1 - dpRun bjunk pop a b i j)).take (dpRun bjunk pop a b i j) =
      (b.drop (j + 1 - dpRun bjunk pop a b i j)).take (dpRun bjunk pop a b i j) := by
  intro i
  induction i with
  | zero =>
    intro j
    by_cases h : matchAt bjunk pop a b 0 j = true
    · have hval : dpRun bjunk pop a b 0 j = 1 := by simp [dpRun, h]
      rcases matchAt_iff.mp h with ⟨ha, hb, heq, _, _⟩
      rw [hval]
      rw [show (0 + 1 - 1 : Nat) = 0 from rfl, show j + 1 - 1 = j from by omega]
      rw [show (0 : Nat) = (0 : Nat) from rfl]
      rw [show a.drop 0 = a.drop 0 from rfl]
      rw [slice_take_one (show (0 : Nat) < a.length from ha),
        slice_take_one (show j < b.length from hb), heq]
    · have hval : dpRun bjunk pop a b 0 j = 0 := by simp [dpRun, h]
      rw [hval]
      simp
  | succ i ih =>
    intro j
    cases j with
    | zero =>
      by_cases h : matchAt bjunk pop a b (i + 1) 0 = true
      · have hval : dpRun bjunk pop a b (i + 1) 0 = 1 := by simp [dpRun, h]
        rcases matchAt_iff.mp h with ⟨ha, hb, heq, _, _⟩
        rw [hval]
        rw [show i + 1 + 1 - 1 = i + 1 from by omega, show (0 + 1 - 1 : Nat) = 0 from rfl]
        rw [slice_take_one ha, slice_take_one hb, heq]
      · have hval : dpRun bjunk pop a b (i + 1) 0 = 0 := by simp [dpRun, h]
        rw [hval]
        simp
    | succ j =>
      by_cases h : matchAt bjunk pop a b (i + 1) (j + 1) = true
      · have hval : dpRun bjunk pop a b (i + 1) (j + 1) = dpRun bjunk pop a b i j + 1 := by
          simp [dpRun, h]
        rcases matchAt_iff.mp h with ⟨ha, hb, heq, _, _⟩
        have hk1 : dpRun bjunk pop a b i j ≤ i + 1 := dpRun_le_left i j
        have hk2 : dpRun bjunk pop a b i j ≤ j + 1 := dpRun_le_right j i
        rw [hval]
        have e1 : i + 1 + 1 - (dpRun bjunk pop a b i j + 1) = i + 1 - dpRun bjunk pop a b i j := by
          omega
        have e2 : j + 1 + 1 - (dpRun bjunk pop a b i j + 1) = j + 1 - dpRun bjunk pop a b i j := by
          omega
        rw [e1, e2]
        have ha2 : (i + 1 - dpRun bjunk pop a b i j) + dpRun bjunk pop a b i j < a.length := by
          omega
        have hb2 : (j + 1 - dpRun bjunk pop a b i j) + dpRun bjunk pop a b i j < b.length := by
          omega
        rw [slice_snoc ha2, slice_snoc hb2]
        congr 1
        · exact ih j
        · rw [show (i + 1 - dpRun bjunk pop a b i j) + dpRun bjunk pop a b i j = i + 1 from by omega,
            show (j + 1 - dpRun bjunk pop a b i j) + dpRun bjunk pop a b i j = j + 1 from by omega,
            heq]
      · have hval : dpRun bjunk pop a b (i + 1) (j + 1) = 0 := by simp [dpRun, h]
        rw [hval]
        simp

/-- The invariant of every stored block: it lies inside both strings and
its two slices coincide. -/
def GoodBlock (a b : List Char) (bst : Nat × Nat × Nat) : Prop :=
  bst.1 + bst.2.2 ≤ a.length ∧ bst.2.1 + bst.2.2 ≤ b.length ∧
  (a.drop bst.1).take bst.2.2 = (b.drop bst.2.1).take bst.2.2

theorem goodBlock_init (a b : List Char) : GoodBlock a b (0, 0, 0) :=
  ⟨Nat.zero_le _, Nat.zero_le _, by simp⟩

theorem scanStep_good {bjunk pop : Char → Bool} {a b : List Char} {i : Nat}
    (hi : i < a.length) (bst : Nat × Nat × Nat) (j : Nat)
    (hg : GoodBlock a b bst) (hj : j < b.length) :
    GoodBlock a b (scanStep bjunk pop a b i bst j) := by
  simp only [scanStep]
  by_cases hk : dpRun bjunk pop a b i j > bst.2.2
  · rw [if_pos hk]
    have hki : dpRun bjunk pop a b i j ≤ i + 1 := dpRun_le_left i j
    have hkj : dpRun bjunk pop a b i j ≤ j + 1 := dpRun_le_right j i
    refine ⟨?_, ?_, ?_⟩
    · show (i + 1 - dpRun bjunk pop a b i j) + dpRun bjunk pop a b i j ≤ a.length
      omega
    · show (j + 1 - dpRun bjunk pop a b i j) + dpRun bjunk pop a b i j ≤ b.length
      omega
    · exact dpRun_slice i j
  · rw [if_neg hk]
    exact hg

theorem scanRow_good {bjunk pop : Char → Bool} {a b : List Char}
    (bst : Nat × Nat × Nat) (i : Nat) (hg : GoodBlock a b bst) (hi : i < a.length) :
    GoodBlock a b (scanRow bjunk pop a b bst i) :=
  foldl_preserve (fun _ hj => List.mem_range.mp hj)
    (fun bst j hb hq => scanStep_good hi bst j hb hq) hg

theorem scanBest_good (bjunk pop : Char → Bool) (a b : List Char) :
    GoodBlock a b (scanBest bjunk pop a b) :=
  foldl_preserve (fun _ hi => List.mem_range.mp hi)
    (fun bst i hb hq => scanRow_good bst i hb hq) (goodBlock_init a b)

theorem extCount_nil_left (flag : Bool) (bjunk : Char → Bool) (y : List Char) :
    extCount flag bjunk [] y = 0 := by cases y <;> rfl

theorem extCount_nil_right (flag : Bool) (bjunk : Char → Bool) (x : List Char) :
    extCount flag bjunk x [] = 0 := by cases x <;> rfl

theorem extCount_cons (flag : Bool) (bjunk : Char → Bool) (c d : Char)
    (cs ds : List Char) :
    extCount flag bjunk (c :: cs) (d :: ds) =
      if c == d && (bjunk d == flag) then extCount flag bjunk cs ds + 1 else 0 := rfl

theorem extCount_le_left (flag : Bool) (bjunk : Char → Bool) :
    ∀ (x y : List Char), extCount flag bjunk x y ≤ x.length := by
  intro x
  induction x with
  | nil => intro y; rw [extCount_nil_left]; exact Nat.zero_le _
  | cons c cs ih =>
    intro y
    cases y with
    | nil => rw [extCount_nil_right]; exact Nat.zero_le _
    | cons d ds =>
      rw [extCount_cons]
      by_cases h : (c == d && (bjunk d == flag)) = true
      · rw [if_pos h]
        have := ih ds
        simp only [List.length_cons]
        omega
      · rw [if_neg h]
        exact Nat.zero_le _

theorem extCount_le_right (flag : Bool) (bjunk : Char → Bool) :
    ∀ (x y : List Char), extCount flag bjunk x y ≤ y.length := by
  intro x
  induction x with
  | nil => intro y; rw [extCount_nil_left]; exact Nat.zero_le _
  | cons c cs ih =>
    intro y
    cases y with
    | nil => rw [extCount_nil_right]; exact Nat.zero_le _
    | cons d ds =>
      rw [extCount_cons]
      by_cases h : (c == d && (bjunk d == flag)) = true
      · rw [if_pos h]
        have := ih ds
        simp only [List.length_cons]
        omega
      · rw [if_neg h]
        exact Nat.zero_le _

theorem extCount_take (flag : Bool) (bjunk : Char → Bool) :
    ∀ (x y : List Char),
      x.take (extCount flag bjunk x y) = y.take (extCount flag bjunk x y) := by
  intro x
  induction x with
  | nil => intro y; rw [extCount_nil_left]; simp
  | cons c cs ih =>
    intro y
    cases y with
    | nil => rw [extCount_nil_right]; simp
    | cons d ds =>
      rw [extCount_cons]
      by_cases h : (c == d && (bjunk d == flag)) = true
      · rw [if_pos h]
        have hcd : c = d := by
          simp only [Bool.and_eq_true, beq_iff_eq] at h
          exact h.1
        rw [List.take_succ_cons, List.take_succ_cons, hcd, ih ds]
      · rw [if_neg h]
        simp

theorem rev_take_slice {l : List Char} {m t : Nat} (hm : m ≤ l.length) (ht : t ≤ m) :
    ((l.take m).reverse).take t = ((l.drop (m - t)).take t).reverse := by
  have hlen : (l.take m).length = m := by rw [List.length_take]; omega
  calc ((l.take m).reverse).take t
      = ((l.take m).reverse).take ((l.take m).length - (m - t)) := by
        congr 1
        rw [hlen]
        omega
    _ = ((l.take m).drop (m - t)).reverse := List.reverse_drop.symm
    _ = ((l.drop (m - t)).take t).reverse := by
        have he : m - (m - t) = t := by omega
        rw [List.drop_take, he]

theorem extendBack_good (flag : Bool) (bjunk : Char → Bool) {a b : List Char}
    {bst : Nat × Nat × Nat} (h : GoodBlock a b bst) :
    GoodBlock a b (extendBack flag bjunk a b bst) := by
  obtain ⟨h1, h2, h3⟩ := h
  simp only [extendBack]
  set t := extCount flag bjunk ((a.take bst.1).reverse) ((b.take bst.2.1).reverse) with ht
  have hta : t ≤ bst.1 := by
    have hx := extCount_le_left flag bjunk ((a.take bst.1).reverse) ((b.take bst.2.1).reverse)
    rw [List.length_reverse, List.length_take] at hx
    omega
  have htb : t ≤ bst.2.1 := by
    have hx := extCount_le_right flag bjunk ((a.take bst.1).reverse) ((b.take bst.2.1).reverse)
    rw [List.length_reverse, List.length_take] at hx
    omega
  refine ⟨by simp only []; omega, by simp only []; omega, ?_⟩
  show (a.drop (bst.1 - t)).take (bst.2.2 + t) = (b.drop (bst.2.1 - t)).take (bst.2.2 + t)
  have hsegrev := extCount_take flag bjunk ((a.take bst.1).reverse) ((b.take bst.2.1).reverse)
  rw [← ht] at hsegrev
  rw [rev_take_slice (by omega) hta, rev_take_slice (by omega) htb] at hsegrev
  have hseg : (a.drop (bst.1 - t)).take t = (b.drop (bst.2.1 - t)).take t :=
    List.reverse_injective hsegrev
  have hda : ((a.drop (bst.1 - t)).drop t) = a.drop bst.1 := by
    rw [List.drop_drop]
    congr 1
    omega
  have hdb : ((b.drop (bst.2.1 - t)).drop t) = b.drop bst.2.1 := by
    rw [List.drop_drop]
    congr 1
    omega
  rw [Nat.add_comm bst.2.2 t, List.take_add, List.take_add, hda, hdb, hseg, h3]

theorem extendFwd_good (flag : Bool) (bjunk : Char → Bool) {a b : List Char}
    {bst : Nat × Nat × Nat} (h : GoodBlock a b bst) :
    GoodBlock a b (extendFwd flag bjunk a b bst) := by
  obtain ⟨h1, h2, h3⟩ := h
  simp only [extendFwd]
  set t := extCount flag bjunk (a.drop (bst.1 + bst.2.2)) (b.drop (bst.2.1 + bst.2.2)) with ht
  have hta : t ≤ a.length - (bst.1 + bst.2.2) := by
    have hx := extCount_le_left flag bjunk (a.drop (bst.1 + bst.2.2)) (b.drop (bst.2.1 + bst.2.2))
    rw [List.length_drop] at hx
    omega
  have htb : t ≤ b.length - (bst.2.1 + bst.2.2) := by
    have hx := extCount_le_right flag bjunk (a.drop (bst.1 + bst.2.2)) (b.drop (bst.2.1 + bst.2.2))
    rw [List.length_drop] at hx
    omega
  refine ⟨by simp only []; omega, by simp only []; omega, ?_⟩
  show (a.drop bst.1).take (bst.2.2 + t) = (b.drop bst.2.1).take (bst.2.2 + t)
  have hseg := extCount_take flag bjunk (a.drop (bst.1 + bst.2.2)) (b.drop (bst.2.1 + bst.2.2))
  rw [← ht] at hseg
  have hda : ((a.drop bst.1).drop bst.2.2) = a.drop (bst.1 + bst.2.2) := List.drop_drop _ _ _
  have hdb : ((b.drop bst.2.1).drop bst.2.2) = b.drop (bst.2.1 + bst.2.2) := List.drop_drop _ _ _
  rw [List.take_add, List.take_add, hda, hdb, hseg, h3]

theorem flm_good (bjunk pop : Char → Bool) (a b : List Char) :
    GoodBlock a b (findLongestMatch bjunk pop a b) :=
  extendFwd_good true bjunk (extendBack_good true bjunk
    (extendFwd_good false bjunk (extendBack_good false bjunk (scanBest_good bjunk pop a b))))

theorem flm_nil (bjunk pop : Char → Bool) : findLongestMatch bjunk pop [] [] = (0, 0, 0) := rfl

theorem matchTotalF_nil (bjunk pop : Char → Bool) :
    ∀ fuel, matchTotalF bjunk pop fuel [] [] = 0 := by
  intro fuel
  cases fuel with
  | zero => rfl
  | succ f => simp [matchTotalF, flm_nil]

theorem matchTotalF_le_left (bjunk pop : Char → Bool) :
    ∀ fuel (a b : List Char), matchTotalF bjunk pop fuel a b ≤ a.length := by
  intro fuel
  induction fuel with
  | zero => intro a b; exact Nat.zero_le _
  | succ f ih =>
    intro a b
    simp only [matchTotalF]
    obtain ⟨hb1, hb2, _⟩ := flm_good bjunk pop a b
    by_cases hk : (findLongestMatch bjunk pop a b).2.2 = 0
    · rw [if_pos hk]; exact Nat.zero_le _
    · rw [if_neg hk]
      have n1 := ih (a.take (findLongestMatch bjunk pop a b).1)
        (b.take (findLongestMatch bjunk pop a b).2.1)
      have n2 := ih (a.drop ((findLongestMatch bjunk pop a b).1 + (findLongestMatch bjunk pop a b).2.2))
        (b.drop ((findLongestMatch bjunk pop a b).2.1 + (findLongestMatch bjunk pop a b).2.2))
      rw [List.length_take] at n1
      rw [List.length_drop] at n2
      omega

theorem matchTotalF_le_right (bjunk pop : Char → Bool) :
    ∀ fuel (a b : List Char), matchTotalF bjunk pop fuel a b ≤ b.length := by
  intro fuel
  induction fuel with
  | zero => intro a b; exact Nat.zero_le _
  | succ f ih =>
    intro a b
    simp only [matchTotalF]
    obtain ⟨hb1, hb2, _⟩ := flm_good bjunk pop a b
    by_cases hk : (findLongestMatch bjunk pop a b).2.2 = 0
    · rw [if_pos hk]; exact Nat.zero_le _
    · rw [if_neg hk]
      have n1 := ih (a.take (findLongestMatch bjunk pop a b).1)
        (b.take (findLongestMatch bjunk pop a b).2.1)
      have n2 := ih (a.drop ((findLongestMatch bjunk pop a b).1 + (findLongestMatch bjunk pop a b).2.2))
        (b.drop ((findLongestMatch bjunk pop a b).2.1 + (findLongestMatch bjunk pop a b).2.2))
      rw [List.length_take] at n1
      rw [List.length_drop] at n2
      omega

theorem matchTotalF_congr (bjunk pop : Char → Bool) :
    ∀ n (a b : List Char), a.length + b.length ≤ n →
    ∀ f1 f2, a.length + b.length ≤ f1 → a.length + b.length ≤ f2 →
    matchTotalF bjunk pop f1 a b = matchTotalF bjunk pop f2 a b := by
  intro n
  induction n with
  | zero =>
    intro a b hab f1 f2 _ _
    have ha : a = [] := List.length_eq_zero.mp (by omega)
    have hb : b = [] := List.length_eq_zero.mp (by omega)
    subst ha
    subst hb
    rw [matchTotalF_nil, matchTotalF_nil]
  | succ n ih =>
    intro a b hab f1 f2 h1 h2
    cases f1 with
    | zero =>
      have ha : a = [] := List.length_eq_zero.mp (by omega)
      have hb : b = [] := List.length_eq_zero.mp (by omega)
      subst ha
      subst hb
      rw [matchTotalF_nil, matchTotalF_nil]
    | succ f1 =>
      cases f2 with
      | zero =>
        have ha : a = [] := List.length_eq_zero.mp (by omega)
        have hb : b = [] := List.length_eq_zero.mp (by omega)
        subst ha
        subst hb
        rw [matchTotalF_nil, matchTotalF_nil]
      | succ f2 =>
        simp only [matchTotalF]
        obtain ⟨hb1, hb2, _⟩ := flm_good bjunk pop a b
        by_cases hk : (findLongestMatch bjunk pop a b).2.2 = 0
        · rw [if_pos hk, if_pos hk]
        · rw [if_neg hk, if_neg hk]
          have e1 := ih (a.take (findLongestMatch bjunk pop a b).1)
            (b.take (findLongestMatch bjunk pop a b).2.1)
            (by rw [List.length_take, List.length_take]; omega) f1 f2
            (by rw [List.length_take, List.length_take]; omega)
            (by rw [List.length_take, List.length_take]; omega)
          have e2 := ih
            (a.drop ((findLongestMatch bjunk pop a b).1 + (findLongestMatch bjunk pop a b).2.2))
            (b.drop ((findLongestMatch bjunk pop a b).2.1 + (findLongestMatch bjunk pop a b).2.2))
            (by rw [List.length_drop, List.length_drop]; omega) f1 f2
            (by rw [List.length_drop, List.length_drop]; omega)
            (by rw [List.length_drop, List.length_drop]; omega)
          rw [e1, e2]

theorem matchTotal_eq (bjunk pop : Char → Bool) (a b : List Char) :
    matchTotal bjunk pop a b =
      if (findLongestMatch bjunk pop a b).2.2 = 0 then 0
      else
        matchTotal bjunk pop (a.take (findLongestMatch bjunk pop a b).1)
          (b.take (findLongestMatch bjunk pop a b).2.1) +
        (findLongestMatch bjunk pop a b).2.2 +
        matchTotal bjunk pop
          (a.drop ((findLongestMatch bjunk pop a b).1 + (findLongestMatch bjunk pop a b).2.2))
          (b.drop ((findLongestMatch bjunk pop a b).2.1 + (findLongestMatch bjunk pop a b).2.2)) := by
  obtain ⟨hb1, hb2, _⟩ := flm_good bjunk pop a b
  cases hn : a.length + b.length with
  | zero =>
    have ha : a = [] := List.length_eq_zero.mp (by omega)
    have hb : b = [] := List.length_eq_zero.mp (by omega)
    subst ha
    subst hb
    rw [matchTotal, matchTotalF_nil, flm_nil]
    rfl
  | succ n =>
    rw [matchTotal, hn]
    simp only [matchTotalF]
    by_cases hk : (findLongestMatch bjunk pop a b).2.2 = 0
    · rw [if_pos hk, if_pos hk]
    · rw [if_neg hk, if_neg hk]
      rw [matchTotal, matchTotal]
      have e1 := matchTotalF_congr bjunk pop n
        (a.take (findLongestMatch bjunk pop a b).1)
        (b.take (findLongestMatch bjunk pop a b).2.1)
        (by rw [List.length_take, List.length_take]; omega) n
        ((a.take (findLongestMatch bjunk pop a b).1).length +
          (b.take (findLongestMatch bjunk pop a b).2.1).length)
        (by rw [List.length_take, List.length_take]; omega) (le_refl _)
      have e2 := matchTotalF_congr bjunk pop n
        (a.drop ((findLongestMatch bjunk pop a b).1 + (findLongestMatch bjunk pop a b).2.2))
        (b.drop ((findLongestMatch bjunk pop a b).2.1 + (findLongestMatch bjunk pop a b).2.2))
        (by rw [List.length_drop, List.length_drop]; omega) n
        ((a.drop ((findLongestMatch bjunk pop a b).1 + (findLongestMatch bjunk pop a b).2.2)).length +
          (b.drop ((findLongestMatch bjunk pop a b).2.1 + (findLongestMatch bjunk pop a b).2.2)).length)
        (by rw [List.length_drop, List.length_drop]; omega) (le_refl _)
      rw [e1, e2]

theorem matchTotal_le_left (bjunk pop : Char → Bool) (a b : List Char) :
    matchTotal bjunk pop a b ≤ a.length :=
  matchTotalF_le_left bjunk pop _ a b

theorem matchTotal_le_right (bjunk pop : Char → Bool) (a b : List Char) :
    matchTotal bjunk pop a b ≤ b.length :=
  matchTotalF_le_right bjunk pop _ a b

theorem list_decomp (l : List Char) (i k : Nat) :
    l = l.take i ++ ((l.drop i).take k ++ l.drop (i + k)) := by
  conv_lhs => rw [← List.take_append_drop i l]
  congr 1
  conv_lhs => rw [← List.take_append_drop k (l.drop i)]
  rw [List.drop_drop]

theorem matchTotal_full (bjunk pop : Char → Bool) :
    ∀ n (a b : List Char), a.length + b.length ≤ n →
    matchTotal bjunk pop a b = a.length → a.length = b.length → a = b := by
  intro n
  induction n with
  | zero =>
    intro a b hab _ _
    have ha : a = [] := List.length_eq_zero.mp (by omega)
    have hb : b = [] := List.length_eq_zero.mp (by omega)
    rw [ha, hb]
  | succ n ih =>
    intro a b hab hM hlen
    obtain ⟨hb1, hb2, hslice⟩ := flm_good bjunk pop a b
    rw [matchTotal_eq] at hM
    by_cases hk : (findLongestMatch bjunk pop a b).2.2 = 0
    · rw [if_pos hk] at hM
      have ha : a = [] := List.length_eq_zero.mp hM.symm
      have hb : b = [] := List.length_eq_zero.mp (by omega)
      rw [ha, hb]
    · rw [if_neg hk] at hM
      have hkpos : 1 ≤ (findLongestMatch bjunk pop a b).2.2 := Nat.one_le_iff_ne_zero.mpr hk
      have hlt1 : (a.take (findLongestMatch bjunk pop a b).1).length =
          (findLongestMatch bjunk pop a b).1 := by
        rw [List.length_take]
        exact min_eq_left (by omega)
      have hlt2 : (b.take (findLongestMatch bjunk pop a b).2.1).length =
          (findLongestMatch bjunk pop a b).2.1 := by
        rw [List.length_take]
        exact min_eq_left (by omega)
      have hm1a := matchTotal_le_left bjunk pop (a.take (findLongestMatch bjunk pop a b).1)
        (b.take (findLongestMatch bjunk pop a b).2.1)
      have hm1b := matchTotal_le_right bjunk pop (a.take (findLongestMatch bjunk pop a b).1)
        (b.take (findLongestMatch bjunk pop a b).2.1)
      have hm2a := matchTotal_le_left bjunk pop
        (a.drop ((findLongestMatch bjunk pop a b).1 + (findLongestMatch bjunk pop a b).2.2))
        (b.drop ((findLongestMatch bjunk pop a b).2.1 + (findLongestMatch bjunk pop a b).2.2))
      have hm2b := matchTotal_le_right bjunk pop
        (a.drop ((findLongestMatch bjunk pop a b).1 + (findLongestMatch bjunk pop a b).2.2))
        (b.drop ((findLongestMatch bjunk pop a b).2.1 + (findLongestMatch bjunk pop a b).2.2))
      rw [hlt1] at hm1a
      rw [hlt2] at hm1b
      rw [List.length_drop] at hm2a
      rw [List.length_drop] at hm2b
      have hij : (findLongestMatch bjunk pop a b).1 = (findLongestMatch bjunk pop a b).2.1 := by
        omega
      have hM1 : matchTotal bjunk pop (a.take (findLongestMatch bjunk pop a b).1)
          (b.take (findLongestMatch bjunk pop a b).2.1) =
          (findLongestMatch bjunk pop a b).1 := by omega
      have hM2 : matchTotal bjunk pop
          (a.drop ((findLongestMatch bjunk pop a b).1 + (findLongestMatch bjunk pop a b).2.2))
          (b.drop ((findLongestMatch bjunk pop a b).2.1 + (findLongestMatch bjunk pop a b).2.2)) =
          a.length - ((findLongestMatch bjunk pop a b).1 + (findLongestMatch bjunk pop a b).2.2) := by
        omega
      have hpart1 : a.take (findLongestMatch bjunk pop a b).1 =
          b.take (findLongestMatch bjunk pop a b).2.1 := by
        apply ih _ _ (by rw [hlt1, hlt2]; omega)
        · rw [hM1, hlt1]
        · rw [hlt1, hlt2, hij]
      have hpart2 : a.drop ((findLongestMatch bjunk pop a b).1 + (findLongestMatch bjunk pop a b).2.2) =
          b.drop ((findLongestMatch bjunk pop a b).2.1 + (findLongestMatch bjunk pop a b).2.2) := by
        apply ih _ _ (by rw [List.length_drop, List.length_drop]; omega)
        · rw [hM2, List.length_drop]
        · rw [List.length_drop, List.length_drop]
          omega
      calc a = a.take (findLongestMatch bjunk pop a b).1 ++
            ((a.drop (findLongestMatch bjunk pop a b).1).take (findLongestMatch bjunk pop a b).2.2 ++
              a.drop ((findLongestMatch bjunk pop a b).1 + (findLongestMatch bjunk pop a b).2.2)) :=
          list_decomp a _ _
        _ = b.take (findLongestMatch bjunk pop a b).2.1 ++
            ((b.drop (findLongestMatch bjunk pop a b).2.1).take (findLongestMatch bjunk pop a b).2.2 ++
              b.drop ((findLongestMatch bjunk pop a b).2.1 + (findLongestMatch bjunk pop a b).2.2)) := by
          rw [hpart1, hslice, hpart2]
        _ = b := (list_decomp b _ _).symm

/-! ## The best block of two equal strings lies on the diagonal -/

theorem matchAt_self_right {bjunk pop : Char → Bool} {x : List Char} {i j : Nat}
    (h : matchAt bjunk pop x x i j = true) : matchAt bjunk pop x x j j = true := by
  rcases matchAt_iff.mp h with ⟨_, hj, _, hbj, hpj⟩
  exact matchAt_iff.mpr ⟨hj, hj, rfl, hbj, hpj⟩

theorem matchAt_self_left {bjunk pop : Char → Bool} {x : List Char} {i j : Nat}
    (h : matchAt bjunk pop x x i j = true) : matchAt bjunk pop x x i i = true := by
  rcases matchAt_iff.mp h with ⟨hi, _, heq, hbj, hpj⟩
  rw [← heq] at hbj hpj
  exact matchAt_iff.mpr ⟨hi, hi, rfl, hbj, hpj⟩

theorem dpRun_pos {bjunk pop : Char → Bool} {a b : List Char} {i j : Nat}
    (h : matchAt bjunk pop a b i j = true) : 1 ≤ dpRun bjunk pop a b i j := by
  cases i with
  | zero => simp [dpRun, h]
  | succ i =>
    cases j with
    | zero => simp [dpRun, h]
    | succ j => simp [dpRun, h]

theorem dpRun_le_diag_right {bjunk pop : Char → Bool} {x : List Char} :
    ∀ i j, dpRun bjunk pop x x i j ≤ dpRun bjunk pop x x j j := by
  intro i
  induction i with
  | zero =>
    intro j
    by_cases h : matchAt bjunk pop x x 0 j = true
    · have hv : dpRun bjunk pop x x 0 j = 1 := by simp [dpRun, h]
      rw [hv]
      exact dpRun_pos (matchAt_self_right h)
    · have hv : dpRun bjunk pop x x 0 j = 0 := by simp [dpRun, h]
      rw [hv]
      exact Nat.zero_le _
  | succ i ih =>
    intro j
    cases j with
    | zero =>
      by_cases h : matchAt bjunk pop x x (i + 1) 0 = true
      · have hv : dpRun bjunk pop x x (i + 1) 0 = 1 := by simp [dpRun, h]
        rw [hv]
        exact dpRun_pos (matchAt_self_right h)
      · have hv : dpRun bjunk pop x x (i + 1) 0 = 0 := by simp [dpRun, h]
        rw [hv]
        exact Nat.zero_le _
    | succ j =>
      by_cases h : matchAt bjunk pop x x (i + 1) (j + 1) = true
      · have hv : dpRun bjunk pop x x (i + 1) (j + 1) = dpRun bjunk pop x x i j + 1 := by
          simp [dpRun, h]
        have hds : matchAt bjunk pop x x (j + 1) (j + 1) = true := matchAt_self_right h
        have hv2 : dpRun bjunk pop x x (j + 1) (j + 1) = dpRun bjunk pop x x j j + 1 := by
          simp [dpRun, hds]
        rw [hv, hv2]
        have := ih j
        omega
      · have hv : dpRun bjunk pop x x (i + 1) (j + 1) = 0 := by simp [dpRun, h]
        rw [hv]
        exact Nat.zero_le _

theorem dpRun_le_diag_left {bjunk pop : Char → Bool} {x : List Char} :
    ∀ i j, dpRun bjunk pop x x i j ≤ dpRun bjunk pop x x i i := by
  intro i
  induction i with
  | zero =>
    intro j
    by_cases h : matchAt bjunk pop x x 0 j = true
    · have hv : dpRun bjunk pop x x 0 j = 1 := by simp [dpRun, h]
      rw [hv]
      exact dpRun_pos (matchAt_self_left h)
    · have hv : dpRun bjunk pop x x 0 j = 0 := by simp [dpRun, h]
      rw [hv]
      exact Nat.zero_le _
  | succ i ih =>
    intro j
    cases j with
    | zero =>
      by_cases h : matchAt bjunk pop x x (i + 1) 0 = true
      · have hv : dpRun bjunk pop x x (i + 1) 0 = 1 := by simp [dpRun, h]
        rw [hv]
        exact dpRun_pos (matchAt_self_left h)
      · have hv : dpRun bjunk pop x x (i + 1) 0 = 0 := by simp [dpRun, h]
        rw [hv]
        exact Nat.zero_le _
    | succ j =>
      by_cases h : matchAt bjunk pop x x (i + 1) (j + 1) = true
      · have hv : dpRun bjunk pop x x (i + 1) (j + 1) = dpRun bjunk pop x x i j + 1 := by
          simp [dpRun, h]
        have hds : matchAt bjunk pop x x (i + 1) (i + 1) = true := matchAt_self_left h
        have hv2 : dpRun bjunk pop x x (i + 1) (i + 1) = dpRun bjunk pop x x i i + 1 := by
          simp [dpRun, hds]
        rw [hv, hv2]
        have := ih j
        omega
      · have hv : dpRun bjunk pop x x (i + 1) (j + 1) = 0 := by simp [dpRun, h]
        rw [hv]
        exact Nat.zero_le _

theorem scanRow_diag {bjunk pop : Char → Bool} {x : List Char} (i : Nat) :
    ∀ (js : List Nat), js.Pairwise (· < ·) →
    ∀ (bst : Nat × Nat × Nat), bst.1 = bst.2.1 →
    (∀ j ∈ js, j < i → dpRun bjunk pop x x j j ≤ bst.2.2) →
    (i ∈ js ∨ dpRun bjunk pop x x i i ≤ bst.2.2 ∨ (∀ j ∈ js, j < i)) →
    (js.foldl (scanStep bjunk pop x x i) bst).1 =
      (js.foldl (scanStep bjunk pop x x i) bst).2.1 ∧
    bst.2.2 ≤ (js.foldl (scanStep bjunk pop x x i) bst).2.2 ∧
    ((i ∈ js ∨ dpRun bjunk pop x x i i ≤ bst.2.2) →
      dpRun bjunk pop x x i i ≤ (js.foldl (scanStep bjunk pop x x i) bst).2.2) := by
  intro js
  induction js with
  | nil =>
    intro _ bst hdiag _ _
    refine ⟨hdiag, le_refl _, ?_⟩
    rintro (hmem | hle)
    · exact absurd hmem (List.not_mem_nil _)
    · exact hle
  | cons j tl ih =>
    intro hpw bst hdiag hH1 hH2
    rw [List.pairwise_cons] at hpw
    obtain ⟨hlt, hpwtl⟩ := hpw
    rw [List.foldl_cons]
    rcases Nat.lt_trichotomy j i with hji | hji | hji
    · have hk : dpRun bjunk pop x x i j ≤ bst.2.2 :=
        le_trans (dpRun_le_diag_right i j) (hH1 j (List.mem_cons_self _ _) hji)
      have hstep : scanStep bjunk pop x x i bst j = bst := by
        simp only [scanStep]
        rw [if_neg (by omega)]
      rw [hstep]
      have hH1b : ∀ jx ∈ tl, jx < i → dpRun bjunk pop x x jx jx ≤ bst.2.2 :=
        fun jx hjx h => hH1 jx (List.mem_cons_of_mem _ hjx) h
      have hH2b : i ∈ tl ∨ dpRun bjunk pop x x i i ≤ bst.2.2 ∨ (∀ jx ∈ tl, jx < i) := by
        rcases hH2 with hm | hle | hall
        · rcases List.mem_cons.mp hm with he | hm2
          · exact absurd hji (by omega)
          · exact Or.inl hm2
        · exact Or.inr (Or.inl hle)
        · exact Or.inr (Or.inr (fun jx hjx => hall jx (List.mem_cons_of_mem _ hjx)))
      obtain ⟨c1, c2, c3⟩ := ih hpwtl bst hdiag hH1b hH2b
      refine ⟨c1, c2, ?_⟩
      rintro (hm | hle)
      · rcases List.mem_cons.mp hm with he | hm2
        · exact absurd hji (by omega)
        · exact c3 (Or.inl hm2)
      · exact c3 (Or.inr hle)
    · subst hji
      have hvac : ∀ jx ∈ tl, jx < j → dpRun bjunk pop x x jx jx ≤
          (scanStep bjunk pop x x j bst j).2.2 := by
        intro jx hjx h
        exact absurd h (by have := hlt jx hjx; omega)
      by_cases hupd : dpRun bjunk pop x x j j > bst.2.2
      · have hstep : scanStep bjunk pop x x j bst j =
            (j + 1 - dpRun bjunk pop x x j j, j + 1 - dpRun bjunk pop x x j j,
              dpRun bjunk pop x x j j) := by
          simp only [scanStep]
          rw [if_pos hupd]
        rw [hstep]
        have hH1b : ∀ jx ∈ tl, jx < j → dpRun bjunk pop x x jx jx ≤
            (j + 1 - dpRun bjunk pop x x j j, j + 1 - dpRun bjunk pop x x j j,
              dpRun bjunk pop x x j j).2.2 := by
          intro jx hjx h
          exact absurd h (by have := hlt jx hjx; omega)
        obtain ⟨c1, c2, c3⟩ := ih hpwtl _ rfl hH1b (Or.inr (Or.inl (le_refl _)))
        exact ⟨c1, le_trans (le_of_lt hupd) c2, fun _ => c2⟩
      · have hstep : scanStep bjunk pop x x j bst j = bst := by
          simp only [scanStep]
          rw [if_neg hupd]
        rw [hstep]
        have hle : dpRun bjunk pop x x j j ≤ bst.2.2 := le_of_not_lt hupd
        have hH1b : ∀ jx ∈ tl, jx < j → dpRun bjunk pop x x jx jx ≤ bst.2.2 := by
          intro jx hjx h
          exact absurd h (by have := hlt jx hjx; omega)
        obtain ⟨c1, c2, c3⟩ := ih hpwtl bst hdiag hH1b (Or.inr (Or.inl hle))
        exact ⟨c1, c2, fun _ => c3 (Or.inr hle)⟩
    · have hle : dpRun bjunk pop x x i i ≤ bst.2.2 := by
        rcases hH2 with hm | hle | hall
        · rcases List.mem_cons.mp hm with he | hm2
          · exact absurd hji (by omega)
          · exact absurd (hlt i hm2) (by omega)
        · exact hle
        · exact absurd (hall j (List.mem_cons_self _ _)) (by omega)
      have hk : dpRun bjunk pop x x i j ≤ bst.2.2 :=
        le_trans (dpRun_le_diag_left i j) hle
      have hstep : scanStep bjunk pop x x i bst j = bst := by
        simp only [scanStep]
        rw [if_neg (by omega)]
      rw [hstep]
      have hH1b : ∀ jx ∈ tl, jx < i → dpRun bjunk pop x x jx jx ≤ bst.2.2 :=
        fun jx hjx h => hH1 jx (List.mem_cons_of_mem _ hjx) h
      obtain ⟨c1, c2, c3⟩ := ih hpwtl bst hdiag hH1b (Or.inr (Or.inl hle))
      exact ⟨c1, c2, fun _ => c3 (Or.inr hle)⟩

theorem scanRows_diag_aux {bjunk pop : Char → Bool} {x : List Char} :
    ∀ (is : List Nat), is.Pairwise (· < ·) → (∀ t ∈ is, t < x.length) →
    ∀ (bst : Nat × Nat × Nat), bst.1 = bst.2.1 →
    (∀ t, t < x.length → (t ∈ is ∨ dpRun bjunk pop x x t t ≤ bst.2.2)) →
    (is.foldl (scanRow bjunk pop x x) bst).1 = (is.foldl (scanRow bjunk pop x x) bst).2.1 := by
  intro is
  induction is with
  | nil => intro _ _ bst hdiag _; exact hdiag
  | cons i tl ih =>
    intro hpw hbound bst hdiag hinv
    rw [List.pairwise_cons] at hpw
    obtain ⟨hlt, hpwtl⟩ := hpw
    rw [List.foldl_cons]
    have hin : i < x.length := hbound i (List.mem_cons_self _ _)
    have hH1 : ∀ j ∈ List.range x.length, j < i → dpRun bjunk pop x x j j ≤ bst.2.2 := by
      intro j hj hji
      rcases hinv j (List.mem_range.mp hj) with hm | hle
      · rcases List.mem_cons.mp hm with he | hm2
        · exact absurd hji (by omega)
        · exact absurd (hlt j hm2) (by omega)
      · exact hle
    have hrow := scanRow_diag i (List.range x.length) (List.pairwise_lt_range _)
      bst hdiag hH1 (Or.inl (List.mem_range.mpr hin))
    obtain ⟨c1, c2, c3⟩ := hrow
    have hinv2 : ∀ t, t < x.length →
        (t ∈ tl ∨ dpRun bjunk pop x x t t ≤ (scanRow bjunk pop x x bst i).2.2) := by
      intro t ht
      rcases hinv t ht with hm | hle
      · rcases List.mem_cons.mp hm with he | hm2
        · subst he
          exact Or.inr (c3 (Or.inl (List.mem_range.mpr hin)))
        · exact Or.inl hm2
      · exact Or.inr (le_trans hle c2)
    exact ih hpwtl (fun t ht => hbound t (List.mem_cons_of_mem _ ht))
      (scanRow bjunk pop x x bst i) c1 hinv2

theorem scanBest_diag (bjunk pop : Char → Bool) (x : List Char) :
    (scanBest bjunk pop x x).1 = (scanBest bjunk pop x x).2.1 := by
  exact @scanRows_diag_aux bjunk pop x
    (List.range x.length) (List.pairwise_lt_range _)
    (fun t ht => List.mem_range.mp ht) (0, 0, 0) rfl
    (fun t ht => Or.inl (List.mem_range.mpr ht))

/-- With the junk predicate constantly false, a non-junk extension loop over
two equal strings walks their whole length. -/
theorem extCount_self_false : ∀ (l : List Char),
    extCount false (fun _ => false) l l = l.length := by
  intro l
  induction l with
  | nil => rfl
  | cons c cs ih =>
    rw [extCount_cons]
    simp [ih]

/-- The first backward extension applied to a diagonal block of two equal
strings slides the block all the way to position 0, absorbing the prefix. -/
theorem extendBack_diag_self {x : List Char} {bst : Nat × Nat × Nat}
    (hd : bst.1 = bst.2.1) (hb : bst.1 + bst.2.2 ≤ x.length) :
    extendBack false (fun _ => false) x x bst = (0, 0, bst.2.2 + bst.1) := by
  simp only [extendBack]
  rw [← hd, extCount_self_false, List.length_reverse, List.length_take]
  have h1 : min bst.1 x.length = bst.1 := by omega
  rw [h1, Nat.sub_self]

/-- The first forward extension applied to a prefix block of two equal
strings absorbs the whole common suffix. -/
theorem extendFwd_diag_self {x : List Char} (k : Nat) (hk : k ≤ x.length) :
    extendFwd false (fun _ => false) x x (0, 0, k) = (0, 0, x.length) := by
  simp only [extendFwd]
  rw [extCount_self_false, List.length_drop]
  have h1 : 0 + k = k := by omega
  rw [h1]
  have h2 : k + (x.length - k) = x.length := by omega
  rw [h2]

/-- find_longest_match of a string against itself returns the whole string
as one block, for any popularity predicate: the scan yields some diagonal
block and the extension loops (junk set empty) stretch it to full length. -/
theorem flm_self (pop : Char → Bool) (x : List Char) :
    findLongestMatch (fun _ => false) pop x x = (0, 0, x.length) := by
  obtain ⟨hb1, hb2, _⟩ := scanBest_good (fun _ => false) pop x x
  have hdiag := scanBest_diag (fun _ => false) pop x
  simp only [findLongestMatch]
  rw [extendBack_diag_self hdiag hb1]
  have hk : (scanBest (fun _ => false) pop x x).2.2 +
      (scanBest (fun _ => false) pop x x).1 ≤ x.length := by omega
  rw [extendFwd_diag_self _ hk]
  have h3 : extendBack true (fun _ => false) x x (0, 0, x.length) = (0, 0, x.length) := by
    simp [extendBack, extCount_nil_left]
  rw [h3]
  simp [extendFwd, extCount_nil_left]

/-- The total matched size of a string against itself is its full length. -/
theorem matchTotal_self (pop : Char → Bool) (x : List Char) :
    matchTotal (fun _ => false) pop x x = x.length := by
  rw [matchTotal_eq, flm_self]
  cases x with
  | nil => simp
  | cons c cs =>
    rw [if_neg (by simp)]
    simp only []
    rw [List.take_zero]
    have hd : (c :: cs).drop (0 + (c :: cs).length) = [] := by
      rw [Nat.zero_add, List.drop_length]
    rw [hd]
    rw [matchTotal, matchTotalF_nil]
    omega

/-- SequenceMatcher ratio of a string with itself is exactly 1. -/
theorem ratio_self (x : List Char) : ratio x x = 1 := by
  by_cases h : x.length + x.length = 0
  · rw [ratio, if_pos h]
  · rw [ratio, if_neg h, matchTotal_self]
    have hx : 0 < x.length := by omega
    have h1 : (0 : Rat) < (x.length : Rat) := by exact_mod_cast hx
    have hden : ((x.length : Rat) + (x.length : Rat)) ≠ 0 := by
      have : (0 : Rat) < (x.length : Rat) + (x.length : Rat) := by linarith
      exact ne_of_gt this
    rw [div_eq_one_iff_eq hden]
    ring

/-- SequenceMatcher ratio never exceeds 1. -/
theorem ratio_le_one (a b : List Char) : ratio a b ≤ 1 := by
  by_cases h : a.length + b.length = 0
  · rw [ratio, if_pos h]
  · rw [ratio, if_neg h]
    have hpos : (0 : Rat) < (a.length : Rat) + (b.length : Rat) := by
      have hn : 0 < a.length + b.length := Nat.pos_of_ne_zero h
      exact_mod_cast hn
    rw [div_le_one hpos]
    have hm1 := matchTotal_le_left (fun _ => false) (popularOf b) a b
    have hm2 := matchTotal_le_right (fun _ => false) (popularOf b) a b
    have hn : 2 * matchTotal (fun _ => false) (popularOf b) a b ≤ a.length + b.length := by
      omega
    exact_mod_cast hn

/-- A ratio of exactly 1 forces the two strings to be identical. -/
theorem ratio_eq_one {a b : List Char} (h : ratio a b = 1) : a = b := by
  by_cases h0 : a.length + b.length = 0
  · have ha : a = [] := List.length_eq_zero.mp (by omega)
    have hb : b = [] := List.length_eq_zero.mp (by omega)
    rw [ha, hb]
  · rw [ratio, if_neg h0] at h
    have hpos : (0 : Rat) < (a.length : Rat) + (b.length : Rat) := by
      have hn : 0 < a.length + b.length := Nat.pos_of_ne_zero h0
      exact_mod_cast hn
    rw [div_eq_one_iff_eq (ne_of_gt hpos)] at h
    have hnat : 2 * matchTotal (fun _ => false) (popularOf b) a b = a.length + b.length := by
      exact_mod_cast h
    have hm1 := matchTotal_le_left (fun _ => false) (popularOf b) a b
    have hm2 := matchTotal_le_right (fun _ => false) (popularOf b) a b
    have hMa : matchTotal (fun _ => false) (popularOf b) a b = a.length := by omega
    have hlen : a.length = b.length := by omega
    exact matchTotal_full (fun _ => false) (popularOf b) (a.length + b.length) a b
      (le_refl _) hMa hlen

/-- The running maximum stays below any common upper bound. -/
theorem maxScore_le {ps : List (Item × Rat)} {c : Rat} :
    ∀ {b : Rat}, (∀ p ∈ ps, p.2 ≤ c) → b ≤ c → maxScore ps b ≤ c := by
  induction ps with
  | nil => intro b _ hb; exact hb
  | cons q ps ih =>
    intro b h hb
    rw [maxScore_cons]
    exact ih (fun p hp => h p (List.mem_cons_of_mem _ hp))
      (max_le hb (h q (List.mem_cons_self _ _)))

/-- Every pattern of every item of every category contributes its scored
pair to the scan list. -/
theorem mem_faqPairs {kb : List Category} {q : List Char} {cat : Category}
    {it : Item} {p : List Char} (hcat : cat ∈ kb) (hit : it ∈ cat.items)
    (hp : p ∈ it.patterns) : (it, ratio q (normalize p)) ∈ faqPairs kb q := by
  simp only [faqPairs, List.mem_flatMap, List.mem_map]
  exact ⟨cat, hcat, it, hit, p, hp, rfl⟩

/-- Conversely, every scanned pair is an item of some category scored
against one of its own patterns. -/
theorem faqPairs_mem {kb : List Category} {q : List Char} {pr : Item × Rat}
    (h : pr ∈ faqPairs kb q) :
    ∃ cat ∈ kb, pr.1 ∈ cat.items ∧
      ∃ p2 ∈ pr.1.patterns, pr.2 = ratio q (normalize p2) := by
  simp only [faqPairs, List.mem_flatMap, List.mem_map] at h
  obtain ⟨cat, hcat, it, hit, p2, hp2, heq⟩ := h
  subst heq
  exact ⟨cat, hcat, hit, p2, hp2, rfl⟩

/-- C8: for every utterance whose normalization coincides with the
normalization of some stored pattern, best_faq_answer returns a non-empty
match whose score is exactly 1, and the matched item owns a pattern whose
normalization equals the normalized utterance (on ties between items the
first in scan order wins, exactly as the strict-improvement fold keeps it). -/
theorem c8_exact_pattern_match (kb : List Category) (t : List Char)
    (cat : Category) (it : Item) (p : List Char)
    (hcat : cat ∈ kb) (hit : it ∈ cat.items) (hp : p ∈ it.patterns)
    (heq : normalize t = normalize p) :
    (best_faq_answer kb t).2 = 1 ∧
    ∃ it2, (best_faq_answer kb t).1 = some it2 ∧
      ∃ cat2 ∈ kb, it2 ∈ cat2.items ∧
        ∃ p2 ∈ it2.patterns, normalize t = normalize p2 := by
  have hone : ratio (normalize t) (normalize p) = 1 := by
    rw [heq]; exact ratio_self _
  have hpair : (it, ratio (normalize t) (normalize p)) ∈ faqPairs kb (normalize t) :=
    mem_faqPairs hcat hit hp
  have hub : ∀ pr ∈ faqPairs kb (normalize t), pr.2 ≤ (1 : Rat) := by
    intro pr hpr
    obtain ⟨c2, hc2, hi2, p2, hp2, hpr2⟩ := faqPairs_mem hpr
    rw [hpr2]
    exact ratio_le_one _ _
  have hM : maxScore (faqPairs kb (normalize t)) 0 = 1 := by
    have h1 : ratio (normalize t) (normalize p) ≤ maxScore (faqPairs kb (normalize t)) 0 :=
      le_maxScore_of_mem hpair 0
    rw [hone] at h1
    exact le_antisymm (maxScore_le hub (by norm_num)) h1
  have hex : ∃ pr ∈ faqPairs kb (normalize t),
      (((none : Option Item), (0 : Rat))).2 < pr.2 :=
    ⟨(it, ratio (normalize t) (normalize p)), hpair, by rw [hone]; norm_num⟩
  have key : (faqPairs kb (normalize t)).foldl faqStep (none, 0) =
      (((faqPairs kb (normalize t)).find?
        (fun pr => pr.2 == maxScore (faqPairs kb (normalize t)) 0)).map Prod.fst,
        maxScore (faqPairs kb (normalize t)) 0) :=
    faqFold_main (faqPairs kb (normalize t)) (none, 0) hex
  rw [hM] at key
  have hsome : ((faqPairs kb (normalize t)).find?
      (fun pr => pr.2 == (1 : Rat))).isSome := by
    rw [List.find?_isSome]
    refine ⟨(it, ratio (normalize t) (normalize p)), hpair, ?_⟩
    rw [hone]
    exact beq_self_eq_true _
  obtain ⟨pr0, hfind⟩ := Option.isSome_iff_exists.mp hsome
  rw [hfind] at key
  have hmem0 : pr0 ∈ faqPairs kb (normalize t) := List.mem_of_find?_eq_some hfind
  have hbeq := @List.find?_some _ (fun pr : Item × Rat => pr.2 == (1 : Rat)) pr0 _ hfind
  have hsc : pr0.2 = 1 := eq_of_beq hbeq
  obtain ⟨cat2, hcat2, hit2, p2, hp2, hpr2⟩ := faqPairs_mem hmem0
  have hteq : normalize t = normalize p2 := by
    refine ratio_eq_one ?_
    rw [← hpr2]
    exact hsc
  have hbfa : best_faq_answer kb t = (some pr0.1, 1) := by
    simp only [best_faq_answer]
    rw [key]
    rw [if_pos (by norm_num)]
    rfl
  refine ⟨by rw [hbfa], pr0.1, by rw [hbfa], cat2, hcat2, hit2, p2, hp2, hteq⟩

/-- C8 witness: a one-item knowledge base with pattern q; the utterance Q
normalizes to it, and the resolver returns that item with score exactly 1. -/
theorem c8_witness :
    (⟨['t'], [it0]⟩ : Category) ∈ kb1 ∧ it0 ∈ (⟨['t'], [it0]⟩ : Category).items ∧
    (['q'] : List Char) ∈ it0.patterns ∧ normalize ['Q'] = normalize ['q'] ∧
    ((best_faq_answer kb1 ['Q']).2 = 1 ∧
      ∃ it2, (best_faq_answer kb1 ['Q']).1 = some it2 ∧
        ∃ cat2 ∈ kb1, it2 ∈ cat2.items ∧
          ∃ p2 ∈ it2.patterns, normalize ['Q'] = normalize p2) :=
  ⟨by decide, by decide, by decide, by decide,
    c8_exact_pattern_match kb1 ['Q'] ⟨['t'], [it0]⟩ it0 ['q']
      (by decide) (by decide) (by decide) (by decide)⟩

end Bot
